import Mathlib

/-!
Verification of the Markdown translation batch tool.

Strings are modelled as lists of characters (`Str`); every operation below is a
direct translation of the corresponding Python code:

- `preprocess_markdown` / `postprocess_markdown` embed
  `TranslationService.preprocess_markdown` and
  `TranslationService.postprocess_markdown`.
- `translate_text` embeds `GeminiAPIClient.translate_text`, with the underlying
  `generate_content` call abstracted as an oracle `calls : Nat -> CallOutcome`
  (one outcome per attempt index).  The model additionally returns the number
  of underlying calls performed and the list of sleep durations, which the
  Python code performs as side effects.
- `translate_directory` / `translateSingleFile` embed
  `TranslationOrchestrator.translate_directory` and
  `TranslationOrchestrator._translate_single_file`, with filesystem and
  network collaborators abstracted as an environment `FsEnv` of
  exception-as-`Except` oracles.
- `exit_code_of` embeds the exit-code computation of `main`.

Recursions that Python expresses as while loops over a cursor are written with
an explicit fuel argument equal to the input length (so that all definitions
are structurally recursive and evaluable); fuel-irrelevance lemmas below show
the fuel never runs out on the actual inputs.
-/

abbrev Str := List Char

/-- Characters treated as whitespace by Python str.strip / str.isspace
(ASCII range). -/
def pyIsSpace (c : Char) : Bool :=
  c = ' ' || c = '\t' || c = '\n' || c = '\r' || c = Char.ofNat 11 || c = Char.ofNat 12

/-- Python str.lstrip with no argument. -/
def lstrip (s : Str) : Str := s.dropWhile pyIsSpace

/-- Python str.rstrip with no argument. -/
def rstrip (s : Str) : Str := (s.reverse.dropWhile pyIsSpace).reverse

/-- Python str.strip with no argument. -/
def strip (s : Str) : Str := rstrip (lstrip s)

/-- Python str.lower (ASCII). -/
def lowerStr (s : Str) : Str := s.map Char.toLower

/-- Python substring membership test, sub in s. -/
def subStr (p : Str) : Str → Bool
  | [] => p.isEmpty
  | c :: cs => p.isPrefixOf (c :: cs) || subStr p cs

/-- Python content.split applied with separator a newline: splits at every
newline and keeps empty pieces. -/
def splitNL : Str → List Str
  | [] => [[]]
  | c :: cs =>
    if c = '\n' then [] :: splitNL cs
    else
      match splitNL cs with
      | [] => [[c]]
      | l :: ls => (c :: l) :: ls

/-- Python newline.join applied to a list of lines. -/
def joinNL : List Str → Str
  | [] => []
  | [l] => l
  | l :: ls => l ++ '\n' :: joinNL ls

/-- Fueled core of Python str.replace (all occurrences, scanned left to
right, non-overlapping).  The fuel is consumed one unit per examined
character; `replaceAll` supplies fuel equal to the length of the subject, which
is always sufficient.  The pattern is never empty at any call site (it is
always a placeholder token or a single character). -/
def replaceAllAux (p r : Str) : Nat → Str → Str
  | 0, s => s
  | _ + 1, [] => []
  | fuel + 1, c :: cs =>
    if !p.isEmpty && p.isPrefixOf (c :: cs) then
      r ++ replaceAllAux p r fuel (cs.drop (p.length - 1))
    else
      c :: replaceAllAux p r fuel cs

/-- Python s.replace applied with pattern p and replacement r. -/
def replaceAll (p r s : Str) : Str := replaceAllAux p r s.length s

/-- Decimal digit character, written by Python string formatting. -/
def digitChar (n : Nat) : Char := Char.ofNat (48 + n)

/-- Fueled decimal rendering of a natural number (Python str of an int). -/
def natReprAux : Nat → Nat → Str
  | 0, _ => []
  | fuel + 1, n =>
    if n < 10 then [digitChar n]
    else natReprAux fuel (n / 10) ++ [digitChar (n % 10)]

/-- Decimal rendering of a natural number, as produced by the Python
f-string that builds a placeholder. -/
def natRepr (n : Nat) : Str := natReprAux (n + 1) n

/-- The placeholder token for footnote index i, from
translation_service.py line 112. -/
def placeholder (i : Nat) : Str :=
  ['_', '_', 'F', 'O', 'O', 'T', 'N', 'O', 'T', 'E', '_'] ++ natRepr i ++ ['_', '_']

/-- The test of translation_service.py line 81: re.match of the pattern for a
footnote definition against the stripped line.  For newline-free lines (the
only inputs, since lines come from splitting on newlines) the regex holds
exactly when the stripped line starts with an opening bracket and caret, has a
non-empty run of non-bracket characters up to the first closing bracket, which
is followed by a colon and at least one further character. -/
def matchFootnoteDef (line : Str) : Bool :=
  match strip line with
  | '[' :: '^' :: rest =>
    match rest.dropWhile (· ≠ ']') with
    | ']' :: ':' :: tail => !(rest.takeWhile (· ≠ ']')).isEmpty && !tail.isEmpty
    | _ => false
  | _ => false

/-- The condition of translation_service.py lines 88-105 under which the
collection loop keeps absorbing a following line into the current footnote
block: the line is not blank, is not itself a new definition line, and is
indented by four spaces or a tab. -/
def isContinuation (l : Str) : Bool :=
  !(strip l).isEmpty && !matchFootnoteDef l &&
    ([' ', ' ', ' ', ' '].isPrefixOf l || ['\t'].isPrefixOf l)

/-- Fueled core of the line-scanning loop of preprocess_markdown
(translation_service.py lines 77-116).  The counter n is the number of
footnotes collected so far, which is the index the next placeholder receives
(Python computes it as the length of the footnote list after appending, minus
one).  Fuel equal to the number of remaining lines is always sufficient since
each step consumes at least one line. -/
def preprocessAux : Nat → List Str → Nat → List Str × List Str
  | 0, ls, _ => (ls, [])
  | _ + 1, [], _ => ([], [])
  | fuel + 1, line :: rest, n =>
    if matchFootnoteDef line then
      let conts := rest.takeWhile isContinuation
      let rest' := rest.dropWhile isContinuation
      let pr := preprocessAux fuel rest' (n + 1)
      (placeholder n :: pr.1, joinNL (line :: conts) :: pr.2)
    else
      let pr := preprocessAux fuel rest n
      (line :: pr.1, pr.2)

/-- The line-scanning loop of preprocess_markdown on a list of lines. -/
def preprocessLines (ls : List Str) (n : Nat) : List Str × List Str :=
  preprocessAux ls.length ls n

/-- TranslationService.preprocess_markdown: split into lines, extract
footnote blocks into a table, replace each block by a placeholder line, and
rejoin. -/
def preprocess_markdown (content : Str) : Str × List Str :=
  let pr := preprocessLines (splitNL content) 0
  (joinNL pr.1, pr.2)

/-- The replacement loop of postprocess_markdown (lines 142-144): substitute
the placeholder of index start, then recurse on the remaining footnotes with
the next index. -/
def postprocessAux (n : Nat) (fns : List Str) (s : Str) : Str :=
  match fns with
  | [] => s
  | f :: fs => postprocessAux (n + 1) fs (replaceAll (placeholder n) f s)

/-- TranslationService.postprocess_markdown (lines 121-146). -/
def postprocess_markdown (translated : Str) (footnotes : List Str) : Str :=
  if footnotes.isEmpty then translated
  else postprocessAux 0 footnotes translated

/-! ## Remote gateway: GeminiAPIClient.translate_text (api_client.py) -/

/-- Retry configuration fixed at client construction. -/
structure RetryConfig where
  maxRetries : Nat
  retryDelay : ℚ
  rateLimitWait : ℚ
deriving DecidableEq

/-- Outcome of one underlying generate_content call: either a returned
response text (empty models a falsy response or falsy response.text), or a
raised exception with its message. -/
inductive CallOutcome where
  | ret (text : Str)
  | exn (msg : Str)
deriving DecidableEq

/-- The two application error kinds raised by translate_text. -/
inductive ApiErr where
  | api (msg : Str)
  | rate (msg : Str)
deriving DecidableEq

/-- Observable result of translate_text: the returned text, or the raised
error. -/
inductive TResult where
  | ok (text : Str)
  | apiError (msg : Str)
  | rateLimitError (msg : Str)
deriving DecidableEq

/-- Raising a stored exception (api_client.py lines 116, 126, 137, 141). -/
def raiseOf : ApiErr → TResult
  | .api m => .apiError m
  | .rate m => .rateLimitError m

/-- The rate-limit test of api_client.py line 109 on the lowercased
message. -/
def isQuotaMsg (m : Str) : Bool :=
  subStr "quota".data m || subStr "rate limit".data m || subStr "429".data m

/-- The resource-exhaustion test of api_client.py line 119 on the lowercased
message. -/
def isResourceExhaustedMsg (m : Str) : Bool :=
  subStr "resource exhausted".data m || subStr "resource_exhausted".data m

/-- An exception message classified as rate limiting by either of the two
tests of lines 109 and 119 (applied to the lowercased message). -/
def isRateLimitedMsg (msg : Str) : Bool :=
  isQuotaMsg (lowerStr msg) || isResourceExhaustedMsg (lowerStr msg)

/-- The retry loop of translate_text (api_client.py lines 71-142).
Structural recursion on `remaining`, the number of loop iterations left;
`attempt` is the Python loop variable and `lastE` the last_exception local.
The result is paired with the number of underlying calls made and the list of
sleep durations, in order.  The base case models falling out of the loop
(lines 139-142), reached only when max_retries is zero. -/
def ttLoop (cfg : RetryConfig) (calls : Nat → CallOutcome) :
    Nat → Nat → Option ApiErr → TResult × Nat × List ℚ
  | 0, _, lastE =>
    match lastE with
    | some e => (raiseOf e, 0, [])
    | none => (.apiError "Translation failed after all retries".data, 0, [])
  | remaining + 1, attempt, _ =>
    match calls attempt with
    | .ret t =>
      if t.isEmpty then
        -- line 81: raise APIError("API returned empty response"),
        -- caught by the except clause of line 94 (generic backoff)
        if attempt < cfg.maxRetries - 1 then
          let out := ttLoop cfg calls remaining (attempt + 1)
            (some (.api "API returned empty response".data))
          (out.1, out.2.1 + 1, cfg.retryDelay * 2 ^ attempt :: out.2.2)
        else (.apiError "API returned empty response".data, 1, [])
      else (.ok (strip t), 1, [])
    | .exn msg =>
      let m := lowerStr msg
      if isQuotaMsg m then
        let e : ApiErr := .rate ("API rate limit reached: ".data ++ msg)
        if attempt < cfg.maxRetries - 1 then
          let out := ttLoop cfg calls remaining (attempt + 1) (some e)
          (out.1, out.2.1 + 1, cfg.rateLimitWait :: out.2.2)
        else (raiseOf e, 1, [])
      else if isResourceExhaustedMsg m then
        let e : ApiErr := .rate ("API rate limit reached: ".data ++ msg)
        if attempt < cfg.maxRetries - 1 then
          let out := ttLoop cfg calls remaining (attempt + 1) (some e)
          (out.1, out.2.1 + 1, cfg.rateLimitWait :: out.2.2)
        else (raiseOf e, 1, [])
      else
        let e : ApiErr := .api ("API call failed: ".data ++ msg)
        if attempt < cfg.maxRetries - 1 then
          let out := ttLoop cfg calls remaining (attempt + 1) (some e)
          (out.1, out.2.1 + 1, cfg.retryDelay * 2 ^ attempt :: out.2.2)
        else (raiseOf e, 1, [])

/-- GeminiAPIClient.translate_text (api_client.py lines 47-142): the result,
the number of underlying calls, and the sleeps performed. -/
def translate_text (cfg : RetryConfig) (calls : Nat → CallOutcome) (text : Str) :
    TResult × Nat × List ℚ :=
  if text.isEmpty || (strip text).isEmpty then (.ok text, 0, [])
  else ttLoop cfg calls cfg.maxRetries 0 none

/-- The generic-backoff failure an attempt produces, if any: an empty
response raises the fixed empty-response error, and an exception not
classified as rate limiting raises the wrapped generic error. -/
def genericFailure : CallOutcome → Option Str
  | .ret t => if t.isEmpty then some "API returned empty response".data else none
  | .exn m => if isRateLimitedMsg m then none else some ("API call failed: ".data ++ m)

/-- The rate-limited failure an attempt produces, if any. -/
def rlFailure : CallOutcome → Option Str
  | .ret _ => none
  | .exn m =>
    if isRateLimitedMsg m then some ("API rate limit reached: ".data ++ m) else none

/-! ## Orchestrator: TranslationOrchestrator (orchestrator.py) and main.py -/

/-- A filesystem path, as its list of segments. -/
abbrev FPath := List Str

/-- The final segment of a path (pathlib name). -/
def pathName (p : FPath) : Str := p.getLastD []

/-- pathlib stem of a file name: the name with its last extension removed;
a name with no dot, or only a leading dot, is its own stem. -/
def stemOf (name : Str) : Str :=
  let r := name.reverse
  match r.dropWhile (· ≠ '.') with
  | [] => name
  | _ :: rest => if rest.isEmpty then name else rest.reverse

/-- The filename cleanup of orchestrator.py line 113: replace the slash, the
backslash and the colon by an underscore. -/
def sanitizeStem (s : Str) : Str :=
  replaceAll [':'] ['_'] (replaceAll ['\\'] ['_'] (replaceAll ['/'] ['_'] s))

/-- FileSystemService.create_output_path (file_service.py lines 80-113):
source_dir, then the output directory name, then the path of the source file
relative to source_dir; if the source file is not under source_dir, just its
final name. -/
def create_output_path (sourceFile sourceDir : FPath) (outputDirName : Str) : FPath :=
  let rel :=
    if sourceDir.isPrefixOf sourceFile then sourceFile.drop sourceDir.length
    else [pathName sourceFile]
  sourceDir ++ outputDirName :: rel

/-- The external collaborators of the orchestrator, as oracles: enumeration,
file reads and writes, and the gateway translate_text call (exceptions are
errors carrying the str of the exception). -/
structure FsEnv where
  findMarkdownFiles : Except Str (List FPath)
  readFile : FPath → Except Str Str
  translateText : Str → Except Str Str
  writeFile : FPath → Str → Except Str Unit

/-- TranslationService.translate_markdown (translation_service.py lines
20-52): empty or whitespace-only content is returned unchanged with no call;
otherwise shield, translate, unshield, wrapping any failure into a
translation error message. -/
def translate_markdown (env : FsEnv) (content : Str) : Except Str Str :=
  if content.isEmpty || (strip content).isEmpty then .ok content
  else
    match env.translateText (preprocess_markdown content).1 with
    | .error e => .error ("Failed to translate markdown: ".data ++ e)
    | .ok translated => .ok (postprocess_markdown translated (preprocess_markdown content).2)

/-- The output path computed by _translate_single_file (orchestrator.py lines
104-127): the stem of the source name is sent to the gateway; on success the
result is sanitized, on any failure the original stem is kept; the final
segment of the output path becomes that stem with the markdown extension. -/
def outPathOf (env : FsEnv) (sourceFile sourceDir : FPath) (outputDirName : Str) : FPath :=
  let originalStem := stemOf (pathName sourceFile)
  let translatedStem :=
    match env.translateText originalStem with
    | .ok s => sanitizeStem s
    | .error _ => originalStem
  (create_output_path sourceFile sourceDir outputDirName).dropLast ++
    [translatedStem ++ ".md".data]

/-- The body of the try block of _translate_single_file (orchestrator.py
lines 97-131): read, translate, compute the output path (base-name
translation failures are swallowed inside `outPathOf`), write.  Returns what
was written. -/
def translateSingleFileE (env : FsEnv) (sourceFile sourceDir : FPath)
    (outputDirName : Str) : Except Str (FPath × Str) := do
  let content ← env.readFile sourceFile
  let translated ← translate_markdown env content
  let outPath := outPathOf env sourceFile sourceDir outputDirName
  let _ ← env.writeFile outPath translated
  pure (outPath, translated)

/-- Per-file translation outcome (orchestrator.py TranslationResult). -/
structure TranslationResult where
  source_file : FPath
  success : Bool
  error_message : Option Str
deriving DecidableEq

/-- TranslationOrchestrator._translate_single_file (orchestrator.py lines
78-148): any exception in the try body is caught and recorded as a failed
outcome carrying its message. -/
def translateSingleFile (env : FsEnv) (sourceFile sourceDir : FPath)
    (outputDirName : Str) : TranslationResult :=
  match translateSingleFileE env sourceFile sourceDir outputDirName with
  | .ok _ => ⟨sourceFile, true, none⟩
  | .error e => ⟨sourceFile, false, some e⟩

/-- TranslationOrchestrator.translate_directory (orchestrator.py lines
38-76): failed or empty enumeration yields an empty result list; otherwise
every file is processed in order. -/
def translate_directory (env : FsEnv) (sourceDir : FPath) (outputDirName : Str) :
    List TranslationResult :=
  match env.findMarkdownFiles with
  | .error _ => []
  | .ok files =>
    if files.isEmpty then []
    else files.map (fun f => translateSingleFile env f sourceDir outputDirName)

/-- The exit-code computation of main.py lines 122-131. -/
def exit_code_of (results : List TranslationResult) : Nat :=
  if results.isEmpty then 0
  else if results.countP (fun r => !r.success) > 0 then 1 else 0

/-! ## Basic facts about prefixes, infixes and line joining -/

theorem isPrefixOf_iff {p s : Str} : p.isPrefixOf s = true ↔ p <+: s := by
  exact List.isPrefixOf_iff_prefix

theorem pre_of_eq {p s : Str} (w : Str) (h : p ++ w = s) : p <+: s := ⟨w, h⟩

theorem pre_append_right {p x : Str} (h : p <+: x) (z : Str) : p <+: x ++ z :=
  h.trans ⟨z, rfl⟩

theorem inf_of_pre {p s : Str} (h : p <+: s) : p <:+: s := by
  obtain ⟨w, hw⟩ := h
  exact ⟨[], w, by simpa using hw⟩

theorem inf_cons {p s : Str} {c : Char} (h : p <:+: s) : p <:+: c :: s := by
  obtain ⟨u, v, huv⟩ := h
  exact ⟨c :: u, v, by simp [huv]⟩

theorem inf_self {p : Str} : p <:+: p := ⟨[], [], by simp⟩

/-- A prefix of a joined line that may not contain the separating newline
already is a prefix of the first part. -/
theorem pre_of_nl {p : Str} (hnl : '\n' ∉ p) :
    ∀ {x : Str} {y : Str}, p <+: x ++ '\n' :: y → p <+: x := by
  induction p with
  | nil => intro x y _; exact ⟨x, rfl⟩
  | cons d p' ih =>
    intro x y h
    obtain ⟨w, hw⟩ := h
    cases x with
    | nil =>
      simp only [List.cons_append, List.nil_append] at hw
      have : d = '\n' := by exact (List.cons.injEq _ _ _ _).mp hw |>.1
      exact absurd (this ▸ List.mem_cons_self d p') hnl
    | cons b x' =>
      simp only [List.cons_append] at hw
      obtain ⟨hdb, hrest⟩ := (List.cons.injEq _ _ _ _).mp hw
      have hnl' : '\n' ∉ p' := fun hm => hnl (List.mem_cons_of_mem _ hm)
      have := ih hnl' (pre_of_eq w hrest)
      obtain ⟨w', hw'⟩ := this
      exact ⟨w', by simp [hdb, hw']⟩

/-- An infix of a joined line that may not contain the separating newline is
an infix of one of the two parts. -/
theorem inf_split_nl {p : Str} (hnl : '\n' ∉ p) :
    ∀ {x y : Str}, p <:+: x ++ '\n' :: y → p <:+: x ∨ p <:+: y := by
  intro x y h
  obtain ⟨u, v, huv⟩ := h
  induction u generalizing x with
  | nil =>
    left
    exact inf_of_pre (pre_of_nl hnl (pre_of_eq v (by simpa using huv)))
  | cons a u' ih =>
    cases x with
    | nil =>
      right
      simp only [List.cons_append, List.nil_append] at huv
      obtain ⟨_, hrest⟩ := (List.cons.injEq _ _ _ _).mp huv
      exact ⟨u', v, hrest⟩
    | cons b x' =>
      simp only [List.cons_append] at huv
      obtain ⟨_, hrest⟩ := (List.cons.injEq _ _ _ _).mp huv
      rcases ih hrest with h1 | h2
      · exact Or.inl (inf_cons h1)
      · exact Or.inr h2

theorem joinNL_cons_cons (a b : Str) (t : List Str) :
    joinNL (a :: b :: t) = a ++ '\n' :: joinNL (b :: t) := rfl

theorem joinNL_append :
    ∀ {xs : List Str}, xs ≠ [] → ∀ {ys : List Str}, ys ≠ [] →
      joinNL (xs ++ ys) = joinNL xs ++ '\n' :: joinNL ys := by
  intro xs hxs
  induction xs with
  | nil => exact absurd rfl hxs
  | cons a t ih =>
    intro ys hys
    cases t with
    | nil =>
      cases ys with
      | nil => exact absurd rfl hys
      | cons b ys' => simp [joinNL_cons_cons, joinNL]
    | cons a2 t2 =>
      have h3 := ih (by simp) hys
      simp only [List.cons_append] at h3 ⊢
      rw [joinNL_cons_cons, joinNL_cons_cons, h3]
      simp

theorem mem_joinNL_inf {l : Str} : ∀ {ls : List Str}, l ∈ ls → l <:+: joinNL ls := by
  intro ls
  induction ls with
  | nil => intro h; simp at h
  | cons a t ih =>
    intro h
    rcases List.mem_cons.mp h with rfl | hmem
    · cases t with
      | nil => exact inf_self
      | cons b t' => exact ⟨[], '\n' :: joinNL (b :: t'), by simp [joinNL_cons_cons]⟩
    · have hne : t ≠ [] := by rintro rfl; simp at hmem
      obtain ⟨b, t', rfl⟩ := List.exists_cons_of_ne_nil hne
      obtain ⟨u, v, huv⟩ := ih hmem
      exact ⟨a ++ '\n' :: u, v, by simp [joinNL_cons_cons, ← huv]⟩

theorem inf_of_joinNL {p : Str} (hnl : '\n' ∉ p) (hne : p ≠ []) :
    ∀ {ls : List Str}, p <:+: joinNL ls → ∃ l ∈ ls, p <:+: l := by
  intro ls
  induction ls with
  | nil =>
    intro h
    obtain ⟨u, v, huv⟩ := h
    simp only [joinNL] at huv
    exact absurd (List.append_eq_nil.mp (List.append_eq_nil.mp huv).1).2 hne
  | cons a t ih =>
    intro h
    cases t with
    | nil => exact ⟨a, by simp, h⟩
    | cons b t' =>
      rw [joinNL_cons_cons] at h
      rcases inf_split_nl hnl h with h1 | h2
      · exact ⟨a, by simp, h1⟩
      · obtain ⟨l, hl, hinf⟩ := ih h2
        exact ⟨l, by simp [hl], hinf⟩

/-! ## splitNL facts -/

theorem splitNL_ne_nil (s : Str) : splitNL s ≠ [] := by
  cases s with
  | nil => simp [splitNL]
  | cons c cs =>
    simp only [splitNL]
    by_cases h : c = '\n'
    · simp [h]
    · simp only [h, if_false]
      cases h2 : splitNL cs <;> simp

theorem joinNL_splitNL (s : Str) : joinNL (splitNL s) = s := by
  induction s with
  | nil => rfl
  | cons c cs ih =>
    cases hls : splitNL cs with
    | nil => exact absurd hls (splitNL_ne_nil cs)
    | cons l ls =>
      rw [hls] at ih
      by_cases h : c = '\n'
      · subst h
        have heq : splitNL ('\n' :: cs) = [] :: l :: ls := by
          simp [splitNL, hls]
        rw [heq, joinNL_cons_cons]
        simp [ih]
      · have heq : splitNL (c :: cs) = (c :: l) :: ls := by
          simp only [splitNL, hls, if_neg h]
        rw [heq]
        cases ls with
        | nil => simpa [joinNL] using congrArg (c :: ·) ih
        | cons l2 ls2 =>
          rw [joinNL_cons_cons]
          rw [joinNL_cons_cons] at ih
          rw [List.cons_append, ih]

theorem nl_not_mem_splitNL {s : Str} : ∀ l ∈ splitNL s, '\n' ∉ l := by
  induction s with
  | nil => intro l hl; simp [splitNL] at hl; simp [hl]
  | cons c cs ih =>
    intro l hl
    cases hls : splitNL cs with
    | nil => exact absurd hls (splitNL_ne_nil cs)
    | cons l1 ls1 =>
      by_cases h : c = '\n'
      · subst h
        have heq : splitNL ('\n' :: cs) = [] :: splitNL cs := by
          simp [splitNL]
        rw [heq] at hl
        rcases List.mem_cons.mp hl with rfl | hl2
        · simp
        · exact ih l hl2
      · have heq : splitNL (c :: cs) = (c :: l1) :: ls1 := by
          simp only [splitNL, hls, if_neg h]
        rw [heq] at hl
        rcases List.mem_cons.mp hl with rfl | hl2
        · intro hm
          rcases List.mem_cons.mp hm with hc | hm1
          · exact h hc.symm
          · exact ih l1 (by rw [hls]; exact List.mem_cons_self l1 ls1) hm1
        · exact ih l (by rw [hls]; exact List.mem_cons_of_mem l1 hl2)

/-! ## Fuel irrelevance and unfolding equations -/

theorem replaceAllAux_irrel (p r : Str) :
    ∀ f1 s f2, List.length s ≤ f1 → List.length s ≤ f2 →
      replaceAllAux p r f1 s = replaceAllAux p r f2 s := by
  intro f1
  induction f1 with
  | zero =>
    intro s f2 h1 _
    have : s = [] := List.length_eq_zero.mp (Nat.le_zero.mp h1)
    subst this
    cases f2 <;> rfl
  | succ f ih =>
    intro s f2 h1 h2
    cases s with
    | nil => cases f2 <;> rfl
    | cons c cs =>
      obtain ⟨f2', rfl⟩ : ∃ k, f2 = k + 1 := by
        cases f2 with
        | zero => simp at h2
        | succ k => exact ⟨k, rfl⟩
      simp only [replaceAllAux]
      have hl : cs.length ≤ f := by simpa using h1
      have hl2 : cs.length ≤ f2' := by simpa using h2
      by_cases hc : (!p.isEmpty && p.isPrefixOf (c :: cs)) = true
      · rw [if_pos hc, if_pos hc]
        have hd : (cs.drop (p.length - 1)).length ≤ cs.length := by
          rw [List.length_drop]; omega
        rw [ih (cs.drop (p.length - 1)) f2' (Nat.le_trans hd hl) (Nat.le_trans hd hl2)]
      · rw [if_neg hc, if_neg hc]
        rw [ih cs f2' hl hl2]

theorem replaceAll_nil (p r : Str) : replaceAll p r [] = [] := rfl

theorem replaceAll_cons (p r : Str) (c : Char) (cs : Str) :
    replaceAll p r (c :: cs) =
      if !p.isEmpty && p.isPrefixOf (c :: cs) then
        r ++ replaceAll p r (cs.drop (p.length - 1))
      else c :: replaceAll p r cs := by
  show replaceAllAux p r (c :: cs).length (c :: cs) = _
  simp only [List.length_cons, replaceAllAux]
  by_cases hc : (!p.isEmpty && p.isPrefixOf (c :: cs)) = true
  · rw [if_pos hc, if_pos hc]
    congr 1
    exact replaceAllAux_irrel p r cs.length (cs.drop (p.length - 1)) (cs.drop (p.length - 1)).length
      (by rw [List.length_drop]; omega) le_rfl
  · rw [if_neg hc, if_neg hc]
    rfl

theorem natReprAux_irrel :
    ∀ f1 n f2, n < f1 → n < f2 → natReprAux f1 n = natReprAux f2 n := by
  intro f1
  induction f1 with
  | zero => intro n f2 h1 _; omega
  | succ f ih =>
    intro n f2 h1 h2
    obtain ⟨f2', rfl⟩ : ∃ k, f2 = k + 1 := by
      cases f2 with
      | zero => omega
      | succ k => exact ⟨k, rfl⟩
    simp only [natReprAux]
    by_cases hn : n < 10
    · rw [if_pos hn, if_pos hn]
    · rw [if_neg hn, if_neg hn]
      have hd : n / 10 < n := Nat.div_lt_self (by omega) (by omega)
      rw [ih (n / 10) f2' (by omega) (by omega)]

theorem natRepr_eq (n : Nat) :
    natRepr n = if n < 10 then [digitChar n]
      else natRepr (n / 10) ++ [digitChar (n % 10)] := by
  show natReprAux (n + 1) n = _
  simp only [natReprAux]
  by_cases hn : n < 10
  · rw [if_pos hn, if_pos hn]
  · rw [if_neg hn, if_neg hn]
    have hd : n / 10 < n := Nat.div_lt_self (by omega) (by omega)
    congr 1
    exact natReprAux_irrel n (n / 10) (n / 10 + 1) (by omega) (by omega)

theorem preprocessAux_irrel :
    ∀ f1 (ls : List Str) (n : Nat) f2, ls.length ≤ f1 → ls.length ≤ f2 →
      preprocessAux f1 ls n = preprocessAux f2 ls n := by
  intro f1
  induction f1 with
  | zero =>
    intro ls n f2 h1 _
    have : ls = [] := List.length_eq_zero.mp (Nat.le_zero.mp h1)
    subst this
    cases f2 <;> rfl
  | succ f ih =>
    intro ls n f2 h1 h2
    cases ls with
    | nil => cases f2 <;> rfl
    | cons line rest =>
      obtain ⟨f2', rfl⟩ : ∃ k, f2 = k + 1 := by
        cases f2 with
        | zero => simp at h2
        | succ k => exact ⟨k, rfl⟩
      simp only [preprocessAux]
      have hl : rest.length ≤ f := by simpa using h1
      have hl2 : rest.length ≤ f2' := by simpa using h2
      by_cases hm : matchFootnoteDef line = true
      · rw [if_pos hm, if_pos hm]
        have hd : (rest.dropWhile isContinuation).length ≤ rest.length :=
          (List.dropWhile_sublist _).length_le
        rw [ih (rest.dropWhile isContinuation) (n + 1) f2'
          (Nat.le_trans hd hl) (Nat.le_trans hd hl2)]
      · rw [if_neg hm, if_neg hm]
        rw [ih rest n f2' hl hl2]

theorem preprocessLines_nil (n : Nat) : preprocessLines [] n = ([], []) := rfl

theorem preprocessLines_cons (line : Str) (rest : List Str) (n : Nat) :
    preprocessLines (line :: rest) n =
      if matchFootnoteDef line then
        (placeholder n :: (preprocessLines (rest.dropWhile isContinuation) (n + 1)).1,
         joinNL (line :: rest.takeWhile isContinuation) ::
           (preprocessLines (rest.dropWhile isContinuation) (n + 1)).2)
      else
        (line :: (preprocessLines rest n).1, (preprocessLines rest n).2) := by
  show preprocessAux (line :: rest).length (line :: rest) n = _
  simp only [List.length_cons, preprocessAux]
  by_cases hm : matchFootnoteDef line = true
  · rw [if_pos hm, if_pos hm]
    have hd : (rest.dropWhile isContinuation).length ≤ rest.length :=
      (List.dropWhile_sublist _).length_le
    rw [preprocessAux_irrel rest.length (rest.dropWhile isContinuation) (n + 1)
      (rest.dropWhile isContinuation).length hd le_rfl]
    rfl
  · rw [if_neg hm, if_neg hm]
    rfl

/-! ## Core replacement lemmas -/

theorem replaceAll_not_inf {p : Str} (r : Str) :
    ∀ {s : Str}, ¬ p <:+: s → replaceAll p r s = s := by
  intro s
  induction s with
  | nil => intro _; rfl
  | cons c cs ih =>
    intro h
    rw [replaceAll_cons]
    have hc : (!p.isEmpty && p.isPrefixOf (c :: cs)) ≠ true := by
      intro hcc
      simp only [Bool.and_eq_true] at hcc
      exact h (inf_of_pre (isPrefixOf_iff.mp hcc.2))
    rw [if_neg hc, ih (fun hi => h (inf_cons hi))]

theorem replaceAll_pat {p : Str} (hp : p ≠ []) (r z : Str) :
    replaceAll p r (p ++ z) = r ++ replaceAll p r z := by
  obtain ⟨d, p', rfl⟩ := List.exists_cons_of_ne_nil hp
  rw [List.cons_append, replaceAll_cons]
  have hc : (!(d :: p').isEmpty && (d :: p').isPrefixOf (d :: (p' ++ z))) = true := by
    simp only [List.isEmpty_cons, Bool.not_false, Bool.true_and]
    exact isPrefixOf_iff.mpr ⟨z, by simp⟩
  rw [if_pos hc]
  simp only [List.length_cons, Nat.add_sub_cancel]
  rw [List.drop_left]

theorem no_pre_of_nl_head {p : Str} (hnl : '\n' ∉ p) (y : Str) :
    (!p.isEmpty && p.isPrefixOf ('\n' :: y)) ≠ true := by
  intro hcc
  simp only [Bool.and_eq_true] at hcc
  obtain ⟨hne, hpre⟩ := hcc
  obtain ⟨w, hw⟩ := isPrefixOf_iff.mp hpre
  cases p with
  | nil => simp at hne
  | cons d p' =>
    have : d = '\n' := by simpa using congrArg (fun l => l.head?) hw
    exact hnl (this ▸ List.mem_cons_self d p')

theorem replaceAll_split_nl {p : Str} (hnl : '\n' ∉ p) (r : Str) :
    ∀ x y : Str, replaceAll p r (x ++ '\n' :: y) =
      replaceAll p r x ++ '\n' :: replaceAll p r y := by
  suffices hN : ∀ N, ∀ x y : Str, x.length ≤ N →
      replaceAll p r (x ++ '\n' :: y) = replaceAll p r x ++ '\n' :: replaceAll p r y by
    intro x y
    exact hN x.length x y le_rfl
  intro N
  induction N with
  | zero =>
    intro x y hx
    have : x = [] := List.length_eq_zero.mp (Nat.le_zero.mp hx)
    subst this
    simp only [List.nil_append, replaceAll_nil]
    rw [replaceAll_cons, if_neg (no_pre_of_nl_head hnl y)]
  | succ N ih =>
    intro x y hx
    cases x with
    | nil =>
      simp only [List.nil_append, replaceAll_nil]
      rw [replaceAll_cons, if_neg (no_pre_of_nl_head hnl y)]
    | cons c x' =>
      have hcond : p.isPrefixOf (c :: x' ++ '\n' :: y) = p.isPrefixOf (c :: x') := by
        by_cases h2 : p.isPrefixOf (c :: x') = true
        · rw [h2]
          exact isPrefixOf_iff.mpr
            (by simpa using pre_append_right (isPrefixOf_iff.mp h2) ('\n' :: y))
        · have h3 : p.isPrefixOf (c :: x' ++ '\n' :: y) ≠ true := fun hcc =>
            h2 (isPrefixOf_iff.mpr (pre_of_nl hnl
              (show p <+: (c :: x') ++ '\n' :: y by simpa using isPrefixOf_iff.mp hcc)))
          rw [Bool.eq_false_iff.mpr h3, Bool.eq_false_iff.mpr h2]
      rw [List.cons_append, replaceAll_cons, replaceAll_cons p r c x']
      rw [show (c :: (x' ++ '\n' :: y)) = (c :: x' ++ '\n' :: y) by simp, hcond]
      by_cases hc : (!p.isEmpty && p.isPrefixOf (c :: x')) = true
      · rw [if_pos hc, if_pos hc]
        simp only [Bool.and_eq_true] at hc
        obtain ⟨hne, hpre⟩ := hc
        have hpne : p ≠ [] := by
          cases p with
          | nil => simp at hne
          | cons d p' => simp
        obtain ⟨d, p', rfl⟩ := List.exists_cons_of_ne_nil hpne
        obtain ⟨w, hw⟩ := isPrefixOf_iff.mp hpre
        have hx' : x' = p' ++ w := by
          have := (List.cons.injEq _ _ _ _).mp (by simpa using hw)
          exact this.2.symm
        subst hx'
        simp only [List.length_cons, Nat.add_sub_cancel]
        rw [List.append_assoc, List.drop_left, List.drop_left]
        have hw' : w.length ≤ N := by
          simp only [List.length_cons, List.length_append] at hx
          omega
        rw [ih w y hw']
        simp
      · rw [if_neg hc, if_neg hc]
        have hx' : x'.length ≤ N := by
          simp only [List.length_cons] at hx
          omega
        rw [ih x' y hx']
        simp

/-! ## Digits, decimal rendering, and placeholder tokens -/

/-- The ten decimal digit characters. -/
def digitChars : Str := ['0', '1', '2', '3', '4', '5', '6', '7', '8', '9']

theorem digitChar_mem {m : Nat} (h : m < 10) : digitChar m ∈ digitChars := by
  interval_cases m <;> decide

theorem natRepr_digits (n : Nat) : ∀ c ∈ natRepr n, c ∈ digitChars := by
  induction n using Nat.strong_induction_on with
  | _ n ih =>
    intro c hc
    rw [natRepr_eq] at hc
    by_cases hn : n < 10
    · rw [if_pos hn] at hc
      simp only [List.mem_singleton] at hc
      exact hc ▸ digitChar_mem hn
    · rw [if_neg hn] at hc
      rcases List.mem_append.mp hc with h1 | h2
      · exact ih (n / 10) (Nat.div_lt_self (by omega) (by omega)) c h1
      · simp only [List.mem_singleton] at h2
        exact h2 ▸ digitChar_mem (Nat.mod_lt n (by omega))

theorem natRepr_ne_nil (n : Nat) : natRepr n ≠ [] := by
  rw [natRepr_eq]
  by_cases hn : n < 10
  · rw [if_pos hn]; simp
  · rw [if_neg hn]; simp

/-- Numeric value of a digit character. -/
def digitVal (c : Char) : Nat := c.toNat - 48

theorem digitVal_digitChar {m : Nat} (h : m < 10) : digitVal (digitChar m) = m := by
  interval_cases m <;> decide

theorem evalDigits_natRepr (n : Nat) :
    (natRepr n).foldl (fun a c => 10 * a + digitVal c) 0 = n := by
  induction n using Nat.strong_induction_on with
  | _ n ih =>
    rw [natRepr_eq]
    by_cases hn : n < 10
    · rw [if_pos hn]
      simp [digitVal_digitChar hn]
    · rw [if_neg hn]
      rw [List.foldl_append]
      have h1 := ih (n / 10) (Nat.div_lt_self (by omega) (by omega))
      rw [h1]
      show 10 * (n / 10) + digitVal (digitChar (n % 10)) = n
      rw [digitVal_digitChar (Nat.mod_lt n (by omega))]
      omega

theorem natRepr_inj {m n : Nat} (h : natRepr m = natRepr n) : m = n := by
  have hm := evalDigits_natRepr m
  rw [h, evalDigits_natRepr n] at hm
  exact hm.symm

theorem digits_not_special : ∀ c ∈ digitChars, c ≠ '\n' ∧ c ≠ '_' ∧ c ≠ 'F' := by decide

theorem nl_not_mem_digits {c : Char} (h : c ∈ digitChars) : c ≠ '\n' :=
  (digits_not_special c h).1

theorem uscore_not_mem_digits {c : Char} (h : c ∈ digitChars) : c ≠ '_' :=
  (digits_not_special c h).2.1

theorem fchar_not_mem_digits {c : Char} (h : c ∈ digitChars) : c ≠ 'F' :=
  (digits_not_special c h).2.2

theorem nl_not_mem_placeholder (i : Nat) : '\n' ∉ placeholder i := by
  intro h
  simp only [placeholder, List.mem_append] at h
  rcases h with (h1 | h2) | h3
  · revert h1; decide
  · exact absurd rfl (nl_not_mem_digits (natRepr_digits i '\n' h2))
  · revert h3; decide

theorem placeholder_ne_nil (i : Nat) : placeholder i ≠ [] := by
  simp [placeholder]

theorem fchar_mem_placeholder (i : Nat) : 'F' ∈ placeholder i := by
  simp only [placeholder, List.mem_append]
  left; left; decide

/-- Two all-digit strings each followed by an underscore and equal as
concatenations are equal. -/
theorem digit_cancel :
    ∀ d1 : Str, (∀ c ∈ d1, c ∈ digitChars) → ∀ d2 : Str, (∀ c ∈ d2, c ∈ digitChars) →
      ∀ z1 z2 : Str, d1 ++ '_' :: z1 = d2 ++ '_' :: z2 → d1 = d2 := by
  intro d1
  induction d1 with
  | nil =>
    intro _ d2 hd2 z1 z2 heq
    cases d2 with
    | nil => rfl
    | cons c d2' =>
      simp only [List.nil_append, List.cons_append, List.cons.injEq] at heq
      exact absurd heq.1.symm (uscore_not_mem_digits (hd2 c (List.mem_cons_self c d2')))
  | cons c d1' ih =>
    intro hd1 d2 hd2 z1 z2 heq
    cases d2 with
    | nil =>
      simp only [List.cons_append, List.nil_append, List.cons.injEq] at heq
      exact absurd heq.1 (uscore_not_mem_digits (hd1 c (List.mem_cons_self c d1')))
    | cons b d2' =>
      simp only [List.cons_append, List.cons.injEq] at heq
      have h1 : ∀ x ∈ d1', x ∈ digitChars := fun x hx => hd1 x (List.mem_cons_of_mem c hx)
      have h2 : ∀ x ∈ d2', x ∈ digitChars := fun x hx => hd2 x (List.mem_cons_of_mem b hx)
      rw [heq.1, ih h1 d2' h2 z1 z2 heq.2]

/-- Distinct footnote indices give placeholder tokens neither of which occurs
inside the other. -/
theorem placeholder_inf_placeholder {i j : Nat} (h : placeholder i <:+: placeholder j) :
    i = j := by
  obtain ⟨u, v, huv⟩ := h
  simp only [placeholder] at huv
  rcases u with _ | ⟨c1, (_ | ⟨c2, (_ | ⟨c3, u3⟩)⟩)⟩
  · -- occurrence at the start: the token of i is a prefix of the token of j
    rw [List.nil_append, List.append_assoc, List.append_assoc, List.append_assoc] at huv
    have hmid := List.append_cancel_left huv
    have h1 : natRepr i ++ '_' :: ('_' :: v) = natRepr j ++ '_' :: ['_'] := by
      simpa using hmid
    exact natRepr_inj (digit_cancel (natRepr i) (natRepr_digits i) (natRepr j)
      (natRepr_digits j) ('_' :: v) ['_'] h1)
  · -- offset one: the third characters disagree
    simp only [List.cons_append, List.append_assoc, List.nil_append,
      List.cons.injEq] at huv
    obtain ⟨_, _, h3, _⟩ := huv
    exact absurd h3 (by decide)
  · -- offset two: the third characters disagree
    simp only [List.cons_append, List.append_assoc, List.nil_append,
      List.cons.injEq] at huv
    obtain ⟨_, _, h3, _⟩ := huv
    exact absurd h3 (by decide)
  · -- offset three or more: the remainder of the token of j has no letter F,
    -- but the token of i contains one
    simp only [List.cons_append, List.append_assoc, List.nil_append,
      List.cons.injEq] at huv
    obtain ⟨_, _, _, hrest⟩ := huv
    have hF1 : 'F' ∈ ('_' :: '_' :: 'F' :: 'O' :: 'O' :: 'T' :: 'N' :: 'O' :: 'T' ::
        'E' :: '_' :: (natRepr i ++ '_' :: '_' :: v)) := by simp
    have hFmem : 'F' ∈ u3 ++ '_' :: '_' :: 'F' :: 'O' :: 'O' :: 'T' :: 'N' :: 'O' ::
        'T' :: 'E' :: '_' :: (natRepr i ++ '_' :: '_' :: v) :=
      List.mem_append.mpr (Or.inr hF1)
    rw [hrest] at hFmem
    simp only [List.mem_cons] at hFmem
    rcases hFmem with h1 | h1 | h1 | h1 | h1 | h1 | h1 | h1 | h1
    · exact absurd h1 (by decide)
    · exact absurd h1 (by decide)
    · exact absurd h1 (by decide)
    · exact absurd h1 (by decide)
    · exact absurd h1 (by decide)
    · exact absurd h1 (by decide)
    · exact absurd h1 (by decide)
    · exact absurd h1 (by decide)
    · rcases List.mem_append.mp h1 with h2 | h2
      · exact absurd rfl (fchar_not_mem_digits (natRepr_digits j 'F' h2))
      · exact absurd h2 (by decide)

/-! ## Postprocessing and the shielding round trip -/

theorem postAux_nil (n : Nat) (s : Str) : postprocessAux n [] s = s := rfl

theorem postAux_cons (n : Nat) (f : Str) (fs : List Str) (s : Str) :
    postprocessAux n (f :: fs) s =
      postprocessAux (n + 1) fs (replaceAll (placeholder n) f s) := rfl

theorem postAux_split_nl (fns : List Str) :
    ∀ (n : Nat) (x y : Str),
      postprocessAux n fns (x ++ '\n' :: y) =
        postprocessAux n fns x ++ '\n' :: postprocessAux n fns y := by
  induction fns with
  | nil => intro n x y; rfl
  | cons f fs ih =>
    intro n x y
    rw [postAux_cons, replaceAll_split_nl (nl_not_mem_placeholder n) f x y, ih,
      postAux_cons, postAux_cons]

theorem postAux_not_inf :
    ∀ (fns : List Str) (n : Nat) (x : Str),
      (∀ i, n ≤ i → i < n + fns.length → ¬ placeholder i <:+: x) →
      postprocessAux n fns x = x := by
  intro fns
  induction fns with
  | nil => intro n x _; rfl
  | cons f fs ih =>
    intro n x h
    rw [postAux_cons,
      replaceAll_not_inf f (h n le_rfl (by simp only [List.length_cons]; omega))]
    exact ih (n + 1) x (fun i h1 h2 =>
      h i (by omega) (by simp only [List.length_cons]; omega))

theorem preLines_fst_nil_iff (ls : List Str) (n : Nat) :
    (preprocessLines ls n).1 = [] ↔ ls = [] := by
  cases ls with
  | nil => simp [preprocessLines_nil]
  | cons line rest =>
    rw [preprocessLines_cons]
    by_cases hm : matchFootnoteDef line = true
    · rw [if_pos hm]; simp
    · rw [if_neg hm]; simp

theorem preLines_mem_fst :
    ∀ N (ls : List Str), ls.length ≤ N → ∀ (n : Nat) (q : Str),
      q ∈ (preprocessLines ls n).1 →
      q ∈ ls ∨ ∃ j, n ≤ j ∧ j < n + (preprocessLines ls n).2.length ∧ q = placeholder j := by
  intro N
  induction N with
  | zero =>
    intro ls h n q hq
    have : ls = [] := List.length_eq_zero.mp (Nat.le_zero.mp h)
    subst this
    simp [preprocessLines_nil] at hq
  | succ N ih =>
    intro ls hlen n q hq
    cases ls with
    | nil => simp [preprocessLines_nil] at hq
    | cons line rest =>
      rw [preprocessLines_cons] at hq ⊢
      have hrlen : rest.length ≤ N := by
        simp only [List.length_cons] at hlen; omega
      by_cases hm : matchFootnoteDef line = true
      · rw [if_pos hm] at hq ⊢
        rcases List.mem_cons.mp hq with rfl | hq2
        · exact Or.inr ⟨n, le_rfl, by simp only [List.length_cons]; omega, rfl⟩
        · have hrlen' : (rest.dropWhile isContinuation).length ≤ N :=
            Nat.le_trans (List.dropWhile_sublist _).length_le hrlen
          rcases ih (rest.dropWhile isContinuation) hrlen' (n + 1) q hq2 with hin | ⟨j, hj1, hj2, hje⟩
          · exact Or.inl (List.mem_cons_of_mem line
              ((List.dropWhile_sublist _).subset hin))
          · exact Or.inr ⟨j, by omega, by simp only [List.length_cons]; omega, hje⟩
      · rw [if_neg hm] at hq ⊢
        rcases List.mem_cons.mp hq with rfl | hq2
        · exact Or.inl (List.mem_cons_self _ _)
        · rcases ih rest hrlen n q hq2 with hin | ⟨j, hj1, hj2, hje⟩
          · exact Or.inl (List.mem_cons_of_mem line hin)
          · exact Or.inr ⟨j, hj1, hj2, hje⟩

theorem replaceAll_self {p : Str} (hp : p ≠ []) (r : Str) : replaceAll p r p = r := by
  have h := replaceAll_pat hp r []
  rw [List.append_nil] at h
  rw [h, replaceAll_nil, List.append_nil]

/-- Core round-trip induction: re-substituting the footnote table into the
shielded lines restores the original lines, provided no placeholder token in
scope occurs inside any original line. -/
theorem roundAux :
    ∀ N (ls : List Str), ls.length ≤ N → ∀ n : Nat,
      (∀ i, n ≤ i → i < n + (preprocessLines ls n).2.length →
        ∀ l ∈ ls, ¬ placeholder i <:+: l) →
      postprocessAux n (preprocessLines ls n).2 (joinNL (preprocessLines ls n).1) =
        joinNL ls := by
  intro N
  induction N with
  | zero =>
    intro ls h n _
    have : ls = [] := List.length_eq_zero.mp (Nat.le_zero.mp h)
    subst this
    rfl
  | succ N ih =>
    intro ls hlen n H
    cases ls with
    | nil => rfl
    | cons line rest =>
      have hrlen : rest.length ≤ N := by
        simp only [List.length_cons] at hlen; omega
      by_cases hm : matchFootnoteDef line = true
      · -- a footnote definition line starts a block
        have Hlen : (preprocessLines (line :: rest) n).2.length =
            (preprocessLines (rest.dropWhile isContinuation) (n + 1)).2.length + 1 := by
          rw [preprocessLines_cons, if_pos hm]
          rfl
        rw [preprocessLines_cons, if_pos hm]
        rw [Hlen] at H
        have hrest'_len : (rest.dropWhile isContinuation).length ≤ N :=
          Nat.le_trans (List.dropWhile_sublist _).length_le hrlen
        have hsplit : rest.takeWhile isContinuation ++ rest.dropWhile isContinuation
            = rest := List.takeWhile_append_dropWhile isContinuation rest
        by_cases hre : rest.dropWhile isContinuation = []
        · -- block runs to the end of the input
          have hP' : (preprocessLines (rest.dropWhile isContinuation) (n + 1)).1 = [] := by
            rw [hre]; rfl
          have hF' : (preprocessLines (rest.dropWhile isContinuation) (n + 1)).2 = [] := by
            rw [hre]; rfl
          rw [hP', hF']
          show postprocessAux (n + 1) []
              (replaceAll (placeholder n) (joinNL (line :: rest.takeWhile isContinuation))
                (joinNL [placeholder n])) = _
          rw [postAux_nil]
          have hjoin : joinNL [placeholder n] = placeholder n := rfl
          rw [hjoin, replaceAll_self (placeholder_ne_nil n)]
          rw [hre, List.append_nil] at hsplit
          rw [hsplit]
        · -- lines continue after the block
          have hP'ne : (preprocessLines (rest.dropWhile isContinuation) (n + 1)).1 ≠ [] := by
            intro hcc
            exact hre ((preLines_fst_nil_iff _ _).mp hcc)
          obtain ⟨q, P'', hP'⟩ := List.exists_cons_of_ne_nil hP'ne
          rw [hP', joinNL_cons_cons, postAux_split_nl]
          -- the placeholder line becomes the block
          have hleft : postprocessAux n
              (joinNL (line :: rest.takeWhile isContinuation) ::
                (preprocessLines (rest.dropWhile isContinuation) (n + 1)).2)
              (placeholder n) = joinNL (line :: rest.takeWhile isContinuation) := by
            rw [postAux_cons, replaceAll_self (placeholder_ne_nil n)]
            apply postAux_not_inf
            intro i hi1 hi2 hinf
            obtain ⟨l, hl, hlinf⟩ := inf_of_joinNL (nl_not_mem_placeholder i)
              (placeholder_ne_nil i) hinf
            have hlrest : l ∈ line :: rest := by
              rcases List.mem_cons.mp hl with rfl | hl2
              · exact List.mem_cons_self _ _
              · exact List.mem_cons_of_mem line ((List.takeWhile_sublist _).subset hl2)
            exact H i (by omega) (by omega) l hlrest hlinf
          -- other lines are untouched by the leading placeholder
          have hright : postprocessAux n
              (joinNL (line :: rest.takeWhile isContinuation) ::
                (preprocessLines (rest.dropWhile isContinuation) (n + 1)).2)
              (joinNL (q :: P'')) = joinNL (rest.dropWhile isContinuation) := by
            rw [postAux_cons]
            have hnoop : replaceAll (placeholder n)
                (joinNL (line :: rest.takeWhile isContinuation)) (joinNL (q :: P'')) =
                joinNL (q :: P'') := by
              apply replaceAll_not_inf
              intro hinf
              obtain ⟨l, hl, hlinf⟩ := inf_of_joinNL (nl_not_mem_placeholder n)
                (placeholder_ne_nil n) hinf
              rw [← hP'] at hl
              rcases preLines_mem_fst (rest.dropWhile isContinuation).length
                  (rest.dropWhile isContinuation) le_rfl (n + 1) l hl with hin | ⟨j, hj1, _, hje⟩
              · have hlrest : l ∈ line :: rest :=
                  List.mem_cons_of_mem line ((List.dropWhile_sublist _).subset hin)
                exact H n le_rfl (by omega) l hlrest hlinf
              · subst hje
                have := placeholder_inf_placeholder hlinf
                omega
            rw [hnoop, ← hP']
            apply ih (rest.dropWhile isContinuation) hrest'_len (n + 1)
            intro i hi1 hi2 l hl hinf
            have hlrest : l ∈ line :: rest :=
              List.mem_cons_of_mem line ((List.dropWhile_sublist _).subset hl)
            exact H i (by omega) (by omega) l hlrest hinf
          rw [hleft, hright]
          have hconts_ne : (line :: rest.takeWhile isContinuation) ≠ [] := by simp
          rw [← joinNL_append hconts_ne hre]
          rw [List.cons_append, hsplit]
      · -- an ordinary line passes through
        have Hlen : (preprocessLines (line :: rest) n).2.length =
            (preprocessLines rest n).2.length := by
          rw [preprocessLines_cons, if_neg hm]
        rw [preprocessLines_cons, if_neg hm]
        rw [Hlen] at H
        by_cases hre : rest = []
        · subst hre
          rfl
        · have hP0ne : (preprocessLines rest n).1 ≠ [] := by
            intro hcc
            exact hre ((preLines_fst_nil_iff _ _).mp hcc)
          obtain ⟨q, P'', hP0⟩ := List.exists_cons_of_ne_nil hP0ne
          rw [hP0, joinNL_cons_cons, postAux_split_nl]
          have hleft : postprocessAux n (preprocessLines rest n).2 line = line := by
            apply postAux_not_inf
            intro i hi1 hi2 hinf
            exact H i hi1 hi2 line (List.mem_cons_self _ _) hinf
          have hright : postprocessAux n (preprocessLines rest n).2 (joinNL (q :: P'')) =
              joinNL rest := by
            rw [← hP0]
            apply ih rest hrlen n
            intro i hi1 hi2 l hl hinf
            exact H i hi1 hi2 l (List.mem_cons_of_mem line hl) hinf
          rw [hleft, hright]
          obtain ⟨b, rest', rfl⟩ := List.exists_cons_of_ne_nil hre
          rw [joinNL_cons_cons]

theorem subStr_iff {p : Str} : ∀ {s : Str}, subStr p s = true ↔ p <:+: s := by
  intro s
  induction s with
  | nil =>
    simp only [subStr, List.isEmpty_iff]
    constructor
    · rintro rfl; exact inf_self
    · intro h
      obtain ⟨u, v, huv⟩ := h
      exact (List.append_eq_nil.mp (List.append_eq_nil.mp huv).1).2
  | cons c cs ih =>
    simp only [subStr, Bool.or_eq_true]
    constructor
    · rintro (h | h)
      · exact inf_of_pre (isPrefixOf_iff.mp h)
      · exact inf_cons (ih.mp h)
    · intro h
      obtain ⟨u, v, huv⟩ := h
      cases u with
      | nil =>
        left
        exact isPrefixOf_iff.mpr ⟨v, by simpa using huv⟩
      | cons a u' =>
        right
        simp only [List.cons_append, List.cons.injEq] at huv
        exact ih.mpr ⟨u', v, huv.2⟩

theorem inf_line_content {l content p : Str} (hl : l ∈ splitNL content)
    (h : p <:+: l) : p <:+: content := by
  have h2 := mem_joinNL_inf hl
  rw [joinNL_splitNL] at h2
  exact h.trans h2

theorem postprocess_eq_aux (t : Str) (F : List Str) :
    postprocess_markdown t F = postprocessAux 0 F t := by
  cases F with
  | nil => rfl
  | cons f fs => rfl

/-- C1, counterexample: the round trip fails as universally stated, because
content may itself contain a placeholder token.  Here the content holds one
well-formed footnote definition block plus a literal placeholder-shaped line,
and unshielding substitutes the footnote text at both occurrences. -/
theorem C1_roundtrip_counterexample :
    postprocess_markdown
        (preprocess_markdown "[^a]: x\n__FOOTNOTE_0__".data).1
        (preprocess_markdown "[^a]: x\n__FOOTNOTE_0__".data).2 ≠
      "[^a]: x\n__FOOTNOTE_0__".data := by decide

/-- C1 (amended): for content containing any number of well-formed footnote
definition blocks, provided no placeholder token of index below the number of
extracted footnotes occurs as a substring of the content, unshielding the
shielded content with the returned table reproduces the content exactly. -/
theorem C1_roundtrip_amended (content : Str)
    (h : ∀ i, i < (preprocess_markdown content).2.length →
      subStr (placeholder i) content = false) :
    postprocess_markdown (preprocess_markdown content).1
      (preprocess_markdown content).2 = content := by
  have hpre1 : (preprocess_markdown content).1 =
      joinNL (preprocessLines (splitNL content) 0).1 := rfl
  have hpre2 : (preprocess_markdown content).2 =
      (preprocessLines (splitNL content) 0).2 := rfl
  rw [postprocess_eq_aux, hpre1, hpre2]
  have hmain := roundAux (splitNL content).length (splitNL content) le_rfl 0 ?H
  · rw [hmain, joinNL_splitNL]
  case H =>
    intro i _ hi2 l hl hinf
    have hic : placeholder i <:+: content := inf_line_content hl hinf
    have hlen : (preprocess_markdown content).2.length =
        (preprocessLines (splitNL content) 0).2.length := rfl
    have hfalse := h i (by omega)
    have htrue := subStr_iff.mpr hic
    rw [hfalse] at htrue
    exact Bool.noConfusion htrue

/-- Witness for the amended C1 at a concrete content with two footnote
blocks, one with an indented continuation line. -/
theorem C1_roundtrip_amended_witness :
    (∀ i, i <
        (preprocess_markdown "Intro\n[^a]: first\n    more\nMid\n\n[^b]: second".data).2.length →
      subStr (placeholder i) "Intro\n[^a]: first\n    more\nMid\n\n[^b]: second".data = false) ∧
    postprocess_markdown
        (preprocess_markdown "Intro\n[^a]: first\n    more\nMid\n\n[^b]: second".data).1
        (preprocess_markdown "Intro\n[^a]: first\n    more\nMid\n\n[^b]: second".data).2 =
      "Intro\n[^a]: first\n    more\nMid\n\n[^b]: second".data := by
  have hh : ∀ i, i <
      (preprocess_markdown "Intro\n[^a]: first\n    more\nMid\n\n[^b]: second".data).2.length →
      subStr (placeholder i) "Intro\n[^a]: first\n    more\nMid\n\n[^b]: second".data = false := by
    intro i hi
    have h2 : (preprocess_markdown
        "Intro\n[^a]: first\n    more\nMid\n\n[^b]: second".data).2.length = 2 := by decide
    rw [h2] at hi
    interval_cases i
    · decide
    · decide
  exact ⟨hh, C1_roundtrip_amended _ hh⟩

/-! ## Retry loop lemmas -/

theorem genericFailure_ret {t : Str} (h : (genericFailure (.ret t)).isSome) :
    t.isEmpty = true := by
  by_contra hcc
  simp only [Bool.not_eq_true] at hcc
  simp [genericFailure, hcc] at h

theorem genericFailure_exn {m : Str} (h : (genericFailure (.exn m)).isSome) :
    isRateLimitedMsg m = false := by
  by_contra hcc
  simp only [Bool.not_eq_false] at hcc
  simp [genericFailure, hcc] at h

theorem genericFailure_exn_msg {m : Str} (h : isRateLimitedMsg m = false) :
    genericFailure (.exn m) = some ("API call failed: ".data ++ m) := by
  simp [genericFailure, h]

theorem rlFailure_exn {m : Str} (h : (rlFailure (.exn m)).isSome) :
    isRateLimitedMsg m = true := by
  by_contra hcc
  simp only [Bool.not_eq_true] at hcc
  simp [rlFailure, hcc] at h

theorem backoff_range (d : ℚ) (attempt k : Nat) :
    (List.range (k + 1)).map (fun j => d * 2 ^ (attempt + j)) =
      d * 2 ^ attempt :: (List.range k).map (fun j => d * 2 ^ (attempt + 1 + j)) := by
  rw [List.range_succ_eq_map]
  simp only [List.map_cons, Nat.add_zero, List.map_map]
  congr 1
  apply List.map_congr_left
  intro a _
  simp only [Function.comp_apply]
  congr 1
  congr 1
  omega

theorem ttLoop_calls_le (cfg : RetryConfig) (calls : Nat → CallOutcome) :
    ∀ (remaining attempt : Nat) (lastE : Option ApiErr),
      (ttLoop cfg calls remaining attempt lastE).2.1 ≤ remaining := by
  intro remaining
  induction remaining with
  | zero =>
    intro attempt lastE
    cases lastE <;> simp [ttLoop]
  | succ rem ih =>
    intro attempt lastE
    simp only [ttLoop]
    split
    · split
      · split
        · exact Nat.succ_le_succ (ih _ _)
        · simp
      · simp
    · split
      · split
        · exact Nat.succ_le_succ (ih _ _)
        · simp
      · split
        · split
          · exact Nat.succ_le_succ (ih _ _)
          · simp
        · split
          · exact Nat.succ_le_succ (ih _ _)
          · simp

/-- Generic failures for the first k attempts followed by a non-empty
response on attempt k: the loop returns the stripped text after k+1 calls,
sleeping the exponential backoff before each retry. -/
theorem ttLoop_gen_success (cfg : RetryConfig) (calls : Nat → CallOutcome) :
    ∀ (k remaining attempt : Nat) (lastE : Option ApiErr) (t : Str),
      k < remaining → attempt + remaining = cfg.maxRetries →
      (∀ j, j < k → (genericFailure (calls (attempt + j))).isSome) →
      calls (attempt + k) = .ret t → t.isEmpty = false →
      ttLoop cfg calls remaining attempt lastE =
        (.ok (strip t), k + 1,
          (List.range k).map (fun j => cfg.retryDelay * 2 ^ (attempt + j))) := by
  intro k
  induction k with
  | zero =>
    intro remaining attempt lastE t hk _ _ hcall ht
    obtain ⟨rem, rfl⟩ : ∃ r, remaining = r + 1 := ⟨remaining - 1, by omega⟩
    rw [Nat.add_zero] at hcall
    simp [ttLoop, hcall, ht]
  | succ k ihk =>
    intro remaining attempt lastE t hk hinv hfail hcall ht
    obtain ⟨rem, rfl⟩ : ∃ r, remaining = r + 1 := ⟨remaining - 1, by omega⟩
    have hatt : attempt < cfg.maxRetries - 1 := by omega
    have hfail' : ∀ j, j < k → (genericFailure (calls (attempt + 1 + j))).isSome := by
      intro j hj
      have := hfail (j + 1) (by omega)
      rwa [show attempt + (j + 1) = attempt + 1 + j by omega] at this
    have hcall' : calls (attempt + 1 + k) = .ret t := by
      rwa [show attempt + 1 + k = attempt + (k + 1) by omega]
    have hrec := fun lastE2 => ihk rem (attempt + 1) lastE2 t (by omega) (by omega)
      hfail' hcall' ht
    have hfail0 := hfail 0 (by omega)
    rw [Nat.add_zero] at hfail0
    rcases hc0 : calls attempt with t0 | m0
    · rw [hc0] at hfail0
      have ht0 := genericFailure_ret hfail0
      simp only [ttLoop, hc0, ht0, if_true, if_pos hatt, hrec]
      rw [backoff_range]
    · rw [hc0] at hfail0
      have hm0 := genericFailure_exn hfail0
      have hq : isQuotaMsg (lowerStr m0) = false := by
        have := hm0
        simp only [isRateLimitedMsg, Bool.or_eq_false_iff] at this
        exact this.1
      have hre : isResourceExhaustedMsg (lowerStr m0) = false := by
        have := hm0
        simp only [isRateLimitedMsg, Bool.or_eq_false_iff] at this
        exact this.2
      simp only [ttLoop, hc0, hq, hre, Bool.false_eq_true, if_false, if_pos hatt, hrec]
      rw [backoff_range]

/-- Generic failures for every attempt: the loop exhausts the budget,
raising the last generic error after the full budget of calls, with
exponential backoff sleeps between attempts. -/
theorem ttLoop_gen_exhaust (cfg : RetryConfig) (calls : Nat → CallOutcome) :
    ∀ (remaining attempt : Nat) (lastE : Option ApiErr) (mlast : Str),
      1 ≤ remaining → attempt + remaining = cfg.maxRetries →
      (∀ j, j < remaining → (genericFailure (calls (attempt + j))).isSome) →
      genericFailure (calls (attempt + (remaining - 1))) = some mlast →
      ttLoop cfg calls remaining attempt lastE =
        (.apiError mlast, remaining,
          (List.range (remaining - 1)).map (fun j => cfg.retryDelay * 2 ^ (attempt + j))) := by
  intro remaining
  induction remaining with
  | zero => intro attempt lastE mlast h1 _ _ _; omega
  | succ rem ih =>
    intro attempt lastE mlast _ hinv hfail hlast
    rw [Nat.succ_sub_one] at hlast
    by_cases hrem : rem = 0
    · subst hrem
      rw [Nat.add_zero] at hlast
      have hatt : ¬ attempt < cfg.maxRetries - 1 := by omega
      rcases hc0 : calls attempt with t0 | m0 <;> rw [hc0] at hlast
      · have ht0 : t0.isEmpty = true := genericFailure_ret (by rw [hlast]; rfl)
        have hml : mlast = "API returned empty response".data := by
          simp [genericFailure, ht0] at hlast
          exact hlast.symm
        simp [ttLoop, hc0, ht0, hatt, hml]
      · have hm0 : isRateLimitedMsg m0 = false := genericFailure_exn (by rw [hlast]; rfl)
        have hml : mlast = "API call failed: ".data ++ m0 := by
          simp [genericFailure, hm0] at hlast
          exact hlast.symm
        have hq : isQuotaMsg (lowerStr m0) = false := by
          have h2 := hm0
          simp only [isRateLimitedMsg, Bool.or_eq_false_iff] at h2
          exact h2.1
        have hre : isResourceExhaustedMsg (lowerStr m0) = false := by
          have h2 := hm0
          simp only [isRateLimitedMsg, Bool.or_eq_false_iff] at h2
          exact h2.2
        simp [ttLoop, hc0, hq, hre, hatt, raiseOf, hml]
    · have hatt : attempt < cfg.maxRetries - 1 := by omega
      have hfail' : ∀ j, j < rem → (genericFailure (calls (attempt + 1 + j))).isSome := by
        intro j hj
        have := hfail (j + 1) (by omega)
        rwa [show attempt + (j + 1) = attempt + 1 + j by omega] at this
      have hlast' : genericFailure (calls (attempt + 1 + (rem - 1))) = some mlast := by
        rwa [show attempt + 1 + (rem - 1) = attempt + rem by omega]
      have hrec := fun lastE2 => ih (attempt + 1) lastE2 mlast (by omega) (by omega)
        hfail' hlast'
      have hsl : (List.range rem).map (fun j => cfg.retryDelay * 2 ^ (attempt + j)) =
          cfg.retryDelay * 2 ^ attempt ::
            (List.range (rem - 1)).map (fun j => cfg.retryDelay * 2 ^ (attempt + 1 + j)) := by
        conv_lhs => rw [show rem = (rem - 1) + 1 by omega]
        exact backoff_range _ _ _
      have hfail0 := hfail 0 (by omega)
      rw [Nat.add_zero] at hfail0
      rcases hc0 : calls attempt with t0 | m0 <;> rw [hc0] at hfail0
      · have ht0 := genericFailure_ret hfail0
        simp only [ttLoop, hc0, ht0, if_true, if_pos hatt, hrec]
        rw [Nat.succ_sub_one, hsl]
      · have hm0 := genericFailure_exn hfail0
        have hq : isQuotaMsg (lowerStr m0) = false := by
          have h2 := hm0
          simp only [isRateLimitedMsg, Bool.or_eq_false_iff] at h2
          exact h2.1
        have hre : isResourceExhaustedMsg (lowerStr m0) = false := by
          have h2 := hm0
          simp only [isRateLimitedMsg, Bool.or_eq_false_iff] at h2
          exact h2.2
        simp only [ttLoop, hc0, hq, hre, Bool.false_eq_true, if_false, if_pos hatt, hrec]
        rw [Nat.succ_sub_one, hsl]

/-- Rate-limited failures for the first k attempts followed by a non-empty
response: the loop returns the stripped text after k+1 calls, sleeping the
fixed rate-limit wait before each retry. -/
theorem ttLoop_rl_success (cfg : RetryConfig) (calls : Nat → CallOutcome) :
    ∀ (k remaining attempt : Nat) (lastE : Option ApiErr) (t : Str),
      k < remaining → attempt + remaining = cfg.maxRetries →
      (∀ j, j < k → (rlFailure (calls (attempt + j))).isSome) →
      calls (attempt + k) = .ret t → t.isEmpty = false →
      ttLoop cfg calls remaining attempt lastE =
        (.ok (strip t), k + 1, List.replicate k cfg.rateLimitWait) := by
  intro k
  induction k with
  | zero =>
    intro remaining attempt lastE t hk _ _ hcall ht
    obtain ⟨rem, rfl⟩ : ∃ r, remaining = r + 1 := ⟨remaining - 1, by omega⟩
    rw [Nat.add_zero] at hcall
    simp [ttLoop, hcall, ht]
  | succ k ihk =>
    intro remaining attempt lastE t hk hinv hfail hcall ht
    obtain ⟨rem, rfl⟩ : ∃ r, remaining = r + 1 := ⟨remaining - 1, by omega⟩
    have hatt : attempt < cfg.maxRetries - 1 := by omega
    have hfail' : ∀ j, j < k → (rlFailure (calls (attempt + 1 + j))).isSome := by
      intro j hj
      have := hfail (j + 1) (by omega)
      rwa [show attempt + (j + 1) = attempt + 1 + j by omega] at this
    have hcall' : calls (attempt + 1 + k) = .ret t := by
      rwa [show attempt + 1 + k = attempt + (k + 1) by omega]
    have hrec := fun lastE2 => ihk rem (attempt + 1) lastE2 t (by omega) (by omega)
      hfail' hcall' ht
    have hfail0 := hfail 0 (by omega)
    rw [Nat.add_zero] at hfail0
    rcases hc0 : calls attempt with t0 | m0
    · rw [hc0] at hfail0
      simp [rlFailure] at hfail0
    · rw [hc0] at hfail0
      have hm0 := rlFailure_exn hfail0
      have hqre : isQuotaMsg (lowerStr m0) = true ∨
          (isQuotaMsg (lowerStr m0) = false ∧ isResourceExhaustedMsg (lowerStr m0) = true) := by
        simp only [isRateLimitedMsg, Bool.or_eq_true] at hm0
        rcases hm0 with h2 | h2
        · exact Or.inl h2
        · by_cases hq2 : isQuotaMsg (lowerStr m0) = true
          · exact Or.inl hq2
          · exact Or.inr ⟨by simpa using hq2, h2⟩
      rcases hqre with hq2 | ⟨hq2, hre2⟩
      · simp only [ttLoop, hc0, hq2, if_true, if_pos hatt, hrec]
        rfl
      · simp only [ttLoop, hc0, hq2, hre2, Bool.false_eq_true, if_false, if_true,
          if_pos hatt, hrec]
        rfl

/-- Rate-limited failures for every attempt: the loop exhausts the budget and
raises the rate-limit error carrying the last cause, with the fixed
rate-limit wait between attempts. -/
theorem ttLoop_rl_exhaust (cfg : RetryConfig) (calls : Nat → CallOutcome) :
    ∀ (remaining attempt : Nat) (lastE : Option ApiErr) (mlast : Str),
      1 ≤ remaining → attempt + remaining = cfg.maxRetries →
      (∀ j, j < remaining → (rlFailure (calls (attempt + j))).isSome) →
      rlFailure (calls (attempt + (remaining - 1))) = some mlast →
      ttLoop cfg calls remaining attempt lastE =
        (.rateLimitError mlast, remaining,
          List.replicate (remaining - 1) cfg.rateLimitWait) := by
  intro remaining
  induction remaining with
  | zero => intro attempt lastE mlast h1 _ _ _; omega
  | succ rem ih =>
    intro attempt lastE mlast _ hinv hfail hlast
    rw [Nat.succ_sub_one] at hlast
    by_cases hrem : rem = 0
    · subst hrem
      rw [Nat.add_zero] at hlast
      have hatt : ¬ attempt < cfg.maxRetries - 1 := by omega
      rcases hc0 : calls attempt with t0 | m0 <;> rw [hc0] at hlast
      · simp [rlFailure] at hlast
      · have hm0 : isRateLimitedMsg m0 = true := rlFailure_exn (by rw [hlast]; rfl)
        have hml : mlast = "API rate limit reached: ".data ++ m0 := by
          simp [rlFailure, hm0] at hlast
          exact hlast.symm
        have hqre : isQuotaMsg (lowerStr m0) = true ∨
            (isQuotaMsg (lowerStr m0) = false ∧
              isResourceExhaustedMsg (lowerStr m0) = true) := by
          simp only [isRateLimitedMsg, Bool.or_eq_true] at hm0
          rcases hm0 with h2 | h2
          · exact Or.inl h2
          · by_cases hq2 : isQuotaMsg (lowerStr m0) = true
            · exact Or.inl hq2
            · exact Or.inr ⟨by simpa using hq2, h2⟩
        rcases hqre with hq2 | ⟨hq2, hre2⟩
        · simp [ttLoop, hc0, hq2, hatt, raiseOf, hml]
        · simp [ttLoop, hc0, hq2, hre2, hatt, raiseOf, hml]
    · have hatt : attempt < cfg.maxRetries - 1 := by omega
      have hfail' : ∀ j, j < rem → (rlFailure (calls (attempt + 1 + j))).isSome := by
        intro j hj
        have := hfail (j + 1) (by omega)
        rwa [show attempt + (j + 1) = attempt + 1 + j by omega] at this
      have hlast' : rlFailure (calls (attempt + 1 + (rem - 1))) = some mlast := by
        rwa [show attempt + 1 + (rem - 1) = attempt + rem by omega]
      have hrec := fun lastE2 => ih (attempt + 1) lastE2 mlast (by omega) (by omega)
        hfail' hlast'
      have hrepl : List.replicate rem cfg.rateLimitWait =
          cfg.rateLimitWait :: List.replicate (rem - 1) cfg.rateLimitWait := by
        conv_lhs => rw [show rem = (rem - 1) + 1 by omega]
        rfl
      have hfail0 := hfail 0 (by omega)
      rw [Nat.add_zero] at hfail0
      rcases hc0 : calls attempt with t0 | m0
      · rw [hc0] at hfail0
        simp [rlFailure] at hfail0
      · rw [hc0] at hfail0
        have hm0 := rlFailure_exn hfail0
        have hqre : isQuotaMsg (lowerStr m0) = true ∨
            (isQuotaMsg (lowerStr m0) = false ∧
              isResourceExhaustedMsg (lowerStr m0) = true) := by
          simp only [isRateLimitedMsg, Bool.or_eq_true] at hm0
          rcases hm0 with h2 | h2
          · exact Or.inl h2
          · by_cases hq2 : isQuotaMsg (lowerStr m0) = true
            · exact Or.inl hq2
            · exact Or.inr ⟨by simpa using hq2, h2⟩
        rcases hqre with hq2 | ⟨hq2, hre2⟩
        · simp only [ttLoop, hc0, hq2, if_true, if_pos hatt, hrec]
          rw [Nat.succ_sub_one, hrepl]
        · simp only [ttLoop, hc0, hq2, hre2, Bool.false_eq_true, if_false, if_true,
            if_pos hatt, hrec]
          rw [Nat.succ_sub_one, hrepl]

/-! ## Stripping lemmas -/

theorem dropWhile_idem {α : Type} (q : α → Bool) :
    ∀ l : List α, (l.dropWhile q).dropWhile q = l.dropWhile q := by
  intro l
  induction l with
  | nil => rfl
  | cons c cs ih =>
    by_cases h : q c = true
    · simp [List.dropWhile_cons, h, ih]
    · simp [List.dropWhile_cons, h]

theorem lstrip_idem (s : Str) : lstrip (lstrip s) = lstrip s := dropWhile_idem pyIsSpace s

theorem rstrip_pre (s : Str) : ∃ w, rstrip s ++ w = s := by
  have hsuf : s.reverse.dropWhile pyIsSpace <:+ s.reverse := List.dropWhile_suffix _
  obtain ⟨u, hu⟩ := hsuf
  refine ⟨u.reverse, ?_⟩
  show (s.reverse.dropWhile pyIsSpace).reverse ++ u.reverse = s
  rw [← List.reverse_append, hu, List.reverse_reverse]

theorem rstrip_idem (x : Str) : rstrip (rstrip x) = rstrip x := by
  show ((((x.reverse.dropWhile pyIsSpace).reverse).reverse).dropWhile pyIsSpace).reverse = _
  rw [List.reverse_reverse, dropWhile_idem]
  rfl

theorem lstrip_rstrip_lstrip (s : Str) : lstrip (rstrip (lstrip s)) = rstrip (lstrip s) := by
  obtain ⟨w, hw⟩ := rstrip_pre (lstrip s)
  cases hr : rstrip (lstrip s) with
  | nil => rfl
  | cons c d =>
    rw [hr] at hw
    have hc : pyIsSpace c = false := by
      by_contra hcc
      simp only [Bool.not_eq_false] at hcc
      have hfix := lstrip_idem s
      rw [← hw] at hfix
      simp only [lstrip, List.cons_append, List.dropWhile_cons, hcc, if_true] at hfix
      have hlen := congrArg List.length hfix
      have hle : ((d ++ w).dropWhile pyIsSpace).length ≤ (d ++ w).length :=
        (List.dropWhile_sublist _).length_le
      simp only [List.length_cons] at hlen
      omega
    simp [lstrip, List.dropWhile_cons, hc]

theorem strip_idem (s : Str) : strip (strip s) = strip s := by
  show rstrip (lstrip (rstrip (lstrip s))) = rstrip (lstrip s)
  rw [lstrip_rstrip_lstrip, rstrip_idem]

theorem strip_nil : strip ([] : Str) = [] := rfl

theorem entry_cond_false {text : Str} (h : (strip text).isEmpty = false) :
    (text.isEmpty || (strip text).isEmpty) = false := by
  rcases htext : text with _ | ⟨c, cs⟩
  · rw [htext] at h
    exact absurd h (by simp [strip_nil])
  · rw [← htext]
    rw [htext] at h ⊢
    simp [h]

theorem translate_text_run {cfg : RetryConfig} {calls : Nat → CallOutcome} {text : Str}
    (h : (strip text).isEmpty = false) :
    translate_text cfg calls text = ttLoop cfg calls cfg.maxRetries 0 none := by
  unfold translate_text
  rw [entry_cond_false h]
  simp

/-! ## Gateway claim theorems -/

/-- C6: empty or whitespace-only input short-circuits: the Gateway
translate_text returns the input unchanged with zero underlying calls and no
sleeps, and the Pipeline translate_markdown returns the content unchanged for
every environment (so neither shielding nor any call can influence it). -/
theorem C6_empty_input_no_call :
    (∀ (cfg : RetryConfig) (calls : Nat → CallOutcome) (text : Str),
      (strip text).isEmpty = true →
      translate_text cfg calls text = (.ok text, 0, [])) ∧
    (∀ content : Str, (strip content).isEmpty = true →
      ∀ env : FsEnv, translate_markdown env content = .ok content) := by
  constructor
  · intro cfg calls text h
    simp [translate_text, h]
  · intro content h env
    simp [translate_markdown, h]

/-- Witness for C6 at a whitespace-only input. -/
theorem C6_empty_input_no_call_witness :
    translate_text ⟨3, 1, 60⟩ (fun _ => .exn "down".data) " \t ".data =
      (.ok " \t ".data, 0, []) :=
  C6_empty_input_no_call.1 ⟨3, 1, 60⟩ (fun _ => .exn "down".data) " \t ".data (by decide)

/-- C10: when the first underlying call succeeds with non-empty text, the
Gateway returns the response text stripped of surrounding whitespace after
exactly one call, and the returned text is strip-idempotent, so it never
carries leading or trailing whitespace (a trailing newline of a document does
not survive). -/
theorem C10_success_strips (cfg : RetryConfig) (calls : Nat → CallOutcome)
    (text t : Str) (htext : (strip text).isEmpty = false) (hmr : 1 ≤ cfg.maxRetries)
    (hcall : calls 0 = .ret t) (ht : t.isEmpty = false) :
    translate_text cfg calls text = (.ok (strip t), 1, []) ∧
      strip (strip t) = strip t := by
  constructor
  · rw [translate_text_run htext]
    have := ttLoop_gen_success cfg calls 0 cfg.maxRetries 0 none t (by omega) (by omega)
      (by intro j hj; omega) (by simpa using hcall) ht
    rw [this]
    simp
  · exact strip_idem t

/-- Witness for C10: a response with surrounding whitespace comes back
stripped after a single call. -/
theorem C10_success_strips_witness :
    translate_text ⟨3, 1, 60⟩ (fun _ => .ret "  hola\n".data) "hi".data =
      (.ok (strip "  hola\n".data), 1, []) ∧
    strip (strip "  hola\n".data) = strip "  hola\n".data :=
  C10_success_strips ⟨3, 1, 60⟩ (fun _ => .ret "  hola\n".data) "hi".data "  hola\n".data
    (by decide) (by decide) (by decide) (by decide)

/-- C3: for non-empty input the Gateway performs at most max retries
underlying calls; generic (non rate-limited) failures are retried with
exponential backoff sleeps of retry delay times two to the attempt; a success
after k generic failures returns the stripped result with exactly k+1 calls
(two failures then a success gives exactly 3); exhausting the budget on
generic failures raises the generic error carrying the last cause. -/
theorem C3_generic_retry_policy :
    (∀ (cfg : RetryConfig) (calls : Nat → CallOutcome) (text : Str),
      (translate_text cfg calls text).2.1 ≤ cfg.maxRetries) ∧
    (∀ (cfg : RetryConfig) (calls : Nat → CallOutcome) (text : Str) (k : Nat) (t : Str),
      (strip text).isEmpty = false → k < cfg.maxRetries →
      (∀ j, j < k → ∃ m, calls j = .exn m ∧ isRateLimitedMsg m = false) →
      calls k = .ret t → t.isEmpty = false →
      translate_text cfg calls text =
        (.ok (strip t), k + 1,
          (List.range k).map (fun j => cfg.retryDelay * 2 ^ j))) ∧
    (∀ (cfg : RetryConfig) (calls : Nat → CallOutcome) (text : Str) (mlast : Str),
      (strip text).isEmpty = false → 1 ≤ cfg.maxRetries →
      (∀ j, j < cfg.maxRetries → ∃ m, calls j = .exn m ∧ isRateLimitedMsg m = false) →
      calls (cfg.maxRetries - 1) = .exn mlast →
      translate_text cfg calls text =
        (.apiError ("API call failed: ".data ++ mlast), cfg.maxRetries,
          (List.range (cfg.maxRetries - 1)).map (fun j => cfg.retryDelay * 2 ^ j))) := by
  refine ⟨?_, ?_, ?_⟩
  · intro cfg calls text
    by_cases hcond : (text.isEmpty || (strip text).isEmpty) = true
    · simp [translate_text, hcond]
    · rw [Bool.not_eq_true] at hcond
      simp only [translate_text, hcond, Bool.false_eq_true, if_false]
      exact ttLoop_calls_le cfg calls cfg.maxRetries 0 none
  · intro cfg calls text k t htext hk hfail hcall ht
    rw [translate_text_run htext]
    have hfail' : ∀ j, j < k → (genericFailure (calls (0 + j))).isSome := by
      intro j hj
      obtain ⟨m, hm, hrl⟩ := hfail j hj
      rw [Nat.zero_add, hm]
      simp [genericFailure, hrl]
    have := ttLoop_gen_success cfg calls k cfg.maxRetries 0 none t hk (by omega)
      hfail' (by simpa using hcall) ht
    rw [this]
    refine congrArg _ (congrArg _ ?_)
    apply List.map_congr_left
    intro a _
    rw [Nat.zero_add]
  · intro cfg calls text mlast htext hmr hfail hlast
    rw [translate_text_run htext]
    have hrl : isRateLimitedMsg mlast = false := by
      obtain ⟨m, hm, hrlm⟩ := hfail (cfg.maxRetries - 1) (by omega)
      rw [hlast] at hm
      injection hm with hm2
      rw [hm2]
      exact hrlm
    have hfail' : ∀ j, j < cfg.maxRetries → (genericFailure (calls (0 + j))).isSome := by
      intro j hj
      obtain ⟨m, hm, hrlm⟩ := hfail j hj
      rw [Nat.zero_add, hm]
      simp [genericFailure, hrlm]
    have hlast' : genericFailure (calls (0 + (cfg.maxRetries - 1))) =
        some ("API call failed: ".data ++ mlast) := by
      rw [Nat.zero_add, hlast]
      exact genericFailure_exn_msg hrl
    have := ttLoop_gen_exhaust cfg calls cfg.maxRetries 0 none
      ("API call failed: ".data ++ mlast) hmr (by omega) hfail' hlast'
    rw [this]
    refine congrArg _ (congrArg _ ?_)
    apply List.map_congr_left
    intro a _
    rw [Nat.zero_add]

/-- Witness for C3: two generic failures then a success yield exactly three
underlying calls and backoff sleeps of one and two seconds. -/
theorem C3_generic_retry_policy_witness :
    translate_text ⟨3, 1, 60⟩
        (fun j => if j < 2 then .exn "boom".data else .ret "ok".data) "hi".data =
      (.ok (strip "ok".data), 2 + 1,
        (List.range 2).map (fun j => (⟨3, 1, 60⟩ : RetryConfig).retryDelay * 2 ^ j)) :=
  C3_generic_retry_policy.2.1 ⟨3, 1, 60⟩
    (fun j => if j < 2 then .exn "boom".data else .ret "ok".data) "hi".data 2 "ok".data
    (by decide) (by decide)
    (by intro j hj; interval_cases j <;> exact ⟨"boom".data, by decide, by decide⟩)
    (by decide) (by decide)

/-- C9: a successful call with empty response text behaves as a generic
failure: a lone empty response followed by a success is retried with the
exponential backoff and succeeds on the next call, and a budget exhausted by
empty responses surfaces as the generic empty-response error. -/
theorem C9_empty_response_generic :
    (∀ (cfg : RetryConfig) (calls : Nat → CallOutcome) (text t : Str),
      (strip text).isEmpty = false → 2 ≤ cfg.maxRetries →
      calls 0 = .ret [] → calls 1 = .ret t → t.isEmpty = false →
      translate_text cfg calls text =
        (.ok (strip t), 2, [cfg.retryDelay * 2 ^ 0])) ∧
    (∀ (cfg : RetryConfig) (calls : Nat → CallOutcome) (text : Str),
      (strip text).isEmpty = false → 1 ≤ cfg.maxRetries →
      (∀ j, j < cfg.maxRetries → calls j = .ret []) →
      translate_text cfg calls text =
        (.apiError "API returned empty response".data, cfg.maxRetries,
          (List.range (cfg.maxRetries - 1)).map (fun j => cfg.retryDelay * 2 ^ j))) := by
  constructor
  · intro cfg calls text t htext hmr hc0 hc1 ht
    rw [translate_text_run htext]
    have hfail' : ∀ j, j < 1 → (genericFailure (calls (0 + j))).isSome := by
      intro j hj
      have hj0 : j = 0 := by omega
      subst hj0
      rw [Nat.zero_add, hc0]
      simp [genericFailure]
    have := ttLoop_gen_success cfg calls 1 cfg.maxRetries 0 none t (by omega) (by omega)
      hfail' (by simpa using hc1) ht
    rw [this, show List.range 1 = [0] by rfl]
    simp
  · intro cfg calls text htext hmr hall
    rw [translate_text_run htext]
    have hfail' : ∀ j, j < cfg.maxRetries → (genericFailure (calls (0 + j))).isSome := by
      intro j hj
      rw [Nat.zero_add, hall j hj]
      simp [genericFailure]
    have hlast' : genericFailure (calls (0 + (cfg.maxRetries - 1))) =
        some "API returned empty response".data := by
      rw [Nat.zero_add, hall (cfg.maxRetries - 1) (by omega)]
      simp [genericFailure]
    have := ttLoop_gen_exhaust cfg calls cfg.maxRetries 0 none
      "API returned empty response".data hmr (by omega) hfail' hlast'
    rw [this]
    refine congrArg _ (congrArg _ ?_)
    apply List.map_congr_left
    intro a _
    rw [Nat.zero_add]

/-- Witness for C9: empty responses exhausting a budget of three attempts
surface as the generic empty-response error after three calls. -/
theorem C9_empty_response_generic_witness :
    translate_text ⟨3, 1, 60⟩ (fun _ => .ret []) "hi".data =
      (.apiError "API returned empty response".data, (⟨3, 1, 60⟩ : RetryConfig).maxRetries,
        (List.range ((⟨3, 1, 60⟩ : RetryConfig).maxRetries - 1)).map
          (fun j => (⟨3, 1, 60⟩ : RetryConfig).retryDelay * 2 ^ j)) :=
  C9_empty_response_generic.2 ⟨3, 1, 60⟩ (fun _ => .ret []) "hi".data
    (by decide) (by decide) (fun j _ => rfl)

/-- C4: a failure message is classified as rate limited exactly when its
lowercased text contains one of the five substrings; such failures wait the
fixed rate-limit delay between attempts (a run of k rate-limited failures
then a success sleeps the fixed wait k times), exhaustion raises the
rate-limit error rather than the generic one, and a failure matching none of
the substrings is classified generic. -/
theorem C4_rate_limit_classification :
    (∀ m : Str, isRateLimitedMsg m = true ↔
      (subStr "quota".data (lowerStr m) = true ∨
       subStr "rate limit".data (lowerStr m) = true ∨
       subStr "429".data (lowerStr m) = true ∨
       subStr "resource exhausted".data (lowerStr m) = true ∨
       subStr "resource_exhausted".data (lowerStr m) = true)) ∧
    (∀ (cfg : RetryConfig) (calls : Nat → CallOutcome) (text : Str) (k : Nat) (t : Str),
      (strip text).isEmpty = false → k < cfg.maxRetries →
      (∀ j, j < k → ∃ m, calls j = .exn m ∧ isRateLimitedMsg m = true) →
      calls k = .ret t → t.isEmpty = false →
      translate_text cfg calls text =
        (.ok (strip t), k + 1, List.replicate k cfg.rateLimitWait)) ∧
    (∀ (cfg : RetryConfig) (calls : Nat → CallOutcome) (text : Str) (mlast : Str),
      (strip text).isEmpty = false → 1 ≤ cfg.maxRetries →
      (∀ j, j < cfg.maxRetries → ∃ m, calls j = .exn m ∧ isRateLimitedMsg m = true) →
      calls (cfg.maxRetries - 1) = .exn mlast →
      translate_text cfg calls text =
        (.rateLimitError ("API rate limit reached: ".data ++ mlast), cfg.maxRetries,
          List.replicate (cfg.maxRetries - 1) cfg.rateLimitWait)) ∧
    (∀ (cfg : RetryConfig) (calls : Nat → CallOutcome) (text m t : Str),
      (strip text).isEmpty = false → 2 ≤ cfg.maxRetries →
      calls 0 = .exn m → isRateLimitedMsg m = false →
      calls 1 = .ret t → t.isEmpty = false →
      translate_text cfg calls text =
        (.ok (strip t), 2, [cfg.retryDelay * 2 ^ 0])) := by
  refine ⟨?_, ?_, ?_, ?_⟩
  · intro m
    simp [isRateLimitedMsg, isQuotaMsg, isResourceExhaustedMsg, Bool.or_eq_true, or_assoc]
  · intro cfg calls text k t htext hk hfail hcall ht
    rw [translate_text_run htext]
    have hfail' : ∀ j, j < k → (rlFailure (calls (0 + j))).isSome := by
      intro j hj
      obtain ⟨m, hm, hrl⟩ := hfail j hj
      rw [Nat.zero_add, hm]
      simp [rlFailure, hrl]
    exact ttLoop_rl_success cfg calls k cfg.maxRetries 0 none t hk (by omega)
      hfail' (by simpa using hcall) ht
  · intro cfg calls text mlast htext hmr hfail hlast
    rw [translate_text_run htext]
    have hrl : isRateLimitedMsg mlast = true := by
      obtain ⟨m, hm, hrlm⟩ := hfail (cfg.maxRetries - 1) (by omega)
      rw [hlast] at hm
      injection hm with hm2
      rw [hm2]
      exact hrlm
    have hfail' : ∀ j, j < cfg.maxRetries → (rlFailure (calls (0 + j))).isSome := by
      intro j hj
      obtain ⟨m, hm, hrlm⟩ := hfail j hj
      rw [Nat.zero_add, hm]
      simp [rlFailure, hrlm]
    have hlast' : rlFailure (calls (0 + (cfg.maxRetries - 1))) =
        some ("API rate limit reached: ".data ++ mlast) := by
      rw [Nat.zero_add, hlast]
      simp [rlFailure, hrl]
    exact ttLoop_rl_exhaust cfg calls cfg.maxRetries 0 none
      ("API rate limit reached: ".data ++ mlast) hmr (by omega) hfail' hlast'
  · intro cfg calls text m t htext hmr hc0 hrl hc1 ht
    rw [translate_text_run htext]
    have hfail' : ∀ j, j < 1 → (genericFailure (calls (0 + j))).isSome := by
      intro j hj
      have hj0 : j = 0 := by omega
      subst hj0
      rw [Nat.zero_add, hc0]
      simp [genericFailure, hrl]
    have := ttLoop_gen_success cfg calls 1 cfg.maxRetries 0 none t (by omega) (by omega)
      hfail' (by simpa using hc1) ht
    rw [this, show List.range 1 = [0] by rfl]
    simp

/-- Witness for C4: failures mentioning a quota exhaust a budget of two
attempts with one fixed-wait sleep and raise the rate-limit error. -/
theorem C4_rate_limit_classification_witness :
    translate_text ⟨2, 1, 60⟩ (fun _ => .exn "Quota exceeded".data) "hi".data =
      (.rateLimitError ("API rate limit reached: ".data ++ "Quota exceeded".data),
        (⟨2, 1, 60⟩ : RetryConfig).maxRetries,
        List.replicate ((⟨2, 1, 60⟩ : RetryConfig).maxRetries - 1)
          (⟨2, 1, 60⟩ : RetryConfig).rateLimitWait) :=
  C4_rate_limit_classification.2.2.1 ⟨2, 1, 60⟩ (fun _ => .exn "Quota exceeded".data)
    "hi".data "Quota exceeded".data (by decide) (by decide)
    (fun j _ => ⟨"Quota exceeded".data, rfl, by decide⟩) (by decide)

/-! ## Orchestrator lemmas and claim theorems -/

theorem tsfe_read_error {env : FsEnv} {f d : FPath} {o : Str} {e : Str}
    (h : env.readFile f = .error e) : translateSingleFileE env f d o = .error e := by
  simp [translateSingleFileE, h, Bind.bind, Except.bind]

theorem tsfe_translate_error {env : FsEnv} {f d : FPath} {o : Str} {content e : Str}
    (hr : env.readFile f = .ok content) (ht : translate_markdown env content = .error e) :
    translateSingleFileE env f d o = .error e := by
  simp [translateSingleFileE, hr, ht, Bind.bind, Except.bind]

theorem tsfe_write_error {env : FsEnv} {f d : FPath} {o : Str} {content translated e : Str}
    (hr : env.readFile f = .ok content) (ht : translate_markdown env content = .ok translated)
    (hw : env.writeFile (outPathOf env f d o) translated = .error e) :
    translateSingleFileE env f d o = .error e := by
  simp [translateSingleFileE, hr, ht, hw, Bind.bind, Except.bind]

theorem tsfe_ok {env : FsEnv} {f d : FPath} {o : Str} {content translated : Str}
    (hr : env.readFile f = .ok content) (ht : translate_markdown env content = .ok translated)
    (hw : env.writeFile (outPathOf env f d o) translated = .ok ()) :
    translateSingleFileE env f d o = .ok (outPathOf env f d o, translated) := by
  simp [translateSingleFileE, hr, ht, hw, Bind.bind, Except.bind]
  rfl

theorem translate_directory_map {env : FsEnv} {sourceDir : FPath} {outName : Str}
    {files : List FPath} (h : env.findMarkdownFiles = .ok files) :
    translate_directory env sourceDir outName =
      files.map (fun f => translateSingleFile env f sourceDir outName) := by
  rcases files with _ | ⟨f, fs⟩ <;> simp [translate_directory, h]

/-- C2: with a successful enumeration the outcome list has one entry per
document, the entry of index i depends only on document i, a failure at the
read, translate or write step is caught and recorded as a failed outcome
carrying that step's error message, and a document whose steps all succeed is
recorded successful. -/
theorem C2_failure_isolation (env : FsEnv) (sourceDir : FPath) (outName : Str)
    (files : List FPath) (hfind : env.findMarkdownFiles = .ok files) :
    (translate_directory env sourceDir outName).length = files.length ∧
    (∀ i : Nat, (translate_directory env sourceDir outName)[i]? =
      (files[i]?).map (fun f => translateSingleFile env f sourceDir outName)) ∧
    (∀ (f : FPath) (e : Str), env.readFile f = .error e →
      translateSingleFile env f sourceDir outName = ⟨f, false, some e⟩) ∧
    (∀ (f : FPath) (content e : Str), env.readFile f = .ok content →
      translate_markdown env content = .error e →
      translateSingleFile env f sourceDir outName = ⟨f, false, some e⟩) ∧
    (∀ (f : FPath) (content translated e : Str), env.readFile f = .ok content →
      translate_markdown env content = .ok translated →
      env.writeFile (outPathOf env f sourceDir outName) translated = .error e →
      translateSingleFile env f sourceDir outName = ⟨f, false, some e⟩) ∧
    (∀ (f : FPath) (content translated : Str), env.readFile f = .ok content →
      translate_markdown env content = .ok translated →
      env.writeFile (outPathOf env f sourceDir outName) translated = .ok () →
      translateSingleFile env f sourceDir outName = ⟨f, true, none⟩) := by
  refine ⟨?_, ?_, ?_, ?_, ?_, ?_⟩
  · rw [translate_directory_map hfind, List.length_map]
  · intro i
    rw [translate_directory_map hfind, List.getElem?_map]
  · intro f e h
    simp [translateSingleFile, tsfe_read_error h]
  · intro f content e hr ht
    simp [translateSingleFile, tsfe_translate_error hr ht]
  · intro f content translated e hr ht hw
    simp [translateSingleFile, tsfe_write_error hr ht hw]
  · intro f content translated hr ht hw
    simp [translateSingleFile, tsfe_ok hr ht hw]

/-- Witness for C2: a batch of two documents where the second fails to read
yields two outcomes, and the failing document's outcome records its read
error while the other is processed independently. -/
theorem C2_failure_isolation_witness :
    (translate_directory
        ⟨.ok [["a.md".data], ["b.md".data]],
         fun p => if p = ["a.md".data] then .ok "hello".data else .error "io down".data,
         fun s => .ok s, fun _ _ => .ok ()⟩
        [] "jp".data).length = 2 ∧
    translateSingleFile
        ⟨.ok [["a.md".data], ["b.md".data]],
         fun p => if p = ["a.md".data] then .ok "hello".data else .error "io down".data,
         fun s => .ok s, fun _ _ => .ok ()⟩
        ["b.md".data] [] "jp".data = ⟨["b.md".data], false, some "io down".data⟩ := by
  refine ⟨(C2_failure_isolation _ [] "jp".data [["a.md".data], ["b.md".data]] rfl).1, ?_⟩
  exact (C2_failure_isolation _ [] "jp".data [["a.md".data], ["b.md".data]] rfl).2.2.1
    ["b.md".data] "io down".data rfl

/-- C7: a failed or empty enumeration yields an empty outcome list and exit
code zero; any failed outcome in a non-empty outcome list forces exit code
one. -/
theorem C7_exit_code_policy :
    (∀ (env : FsEnv) (sourceDir : FPath) (outName : Str) (e : Str),
      env.findMarkdownFiles = .error e →
      translate_directory env sourceDir outName = [] ∧
      exit_code_of (translate_directory env sourceDir outName) = 0) ∧
    (∀ (env : FsEnv) (sourceDir : FPath) (outName : Str),
      env.findMarkdownFiles = .ok [] →
      translate_directory env sourceDir outName = [] ∧
      exit_code_of (translate_directory env sourceDir outName) = 0) ∧
    (∀ results : List TranslationResult, results ≠ [] →
      (∃ r ∈ results, r.success = false) → exit_code_of results = 1) := by
  refine ⟨?_, ?_, ?_⟩
  · intro env sourceDir outName e h
    constructor <;> simp [translate_directory, h, exit_code_of]
  · intro env sourceDir outName h
    constructor <;> simp [translate_directory, h, exit_code_of]
  · intro results hne hex
    have hcount : 0 < results.countP (fun r => !r.success) := by
      rw [List.countP_pos_iff]
      obtain ⟨r, hr, hs⟩ := hex
      exact ⟨r, hr, by simp [hs]⟩
    have hnemp : results.isEmpty = false := by
      rcases results with _ | ⟨a, t⟩
      · exact absurd rfl hne
      · rfl
    simp [exit_code_of, hnemp, hcount]

/-- Witness for C7: one success and one failure force exit code one. -/
theorem C7_exit_code_policy_witness :
    exit_code_of [⟨["a.md".data], true, none⟩, ⟨["b.md".data], false, some "x".data⟩] = 1 :=
  C7_exit_code_policy.2.2
    [⟨["a.md".data], true, none⟩, ⟨["b.md".data], false, some "x".data⟩]
    (by decide) ⟨⟨["b.md".data], false, some "x".data⟩, by decide, rfl⟩

theorem replaceAll_single (a b : Char) :
    ∀ s : Str, replaceAll [a] [b] s = s.map (fun c => if c = a then b else c) := by
  intro s
  induction s with
  | nil => rfl
  | cons c cs ih =>
    rw [replaceAll_cons]
    by_cases hc : c = a
    · subst hc
      have hcond : (!([c] : Str).isEmpty && ([c] : Str).isPrefixOf (c :: cs)) = true := by
        simp [List.isPrefixOf]
      rw [if_pos hcond]
      simp [ih]
    · have hcond : (!([a] : Str).isEmpty && ([a] : Str).isPrefixOf (c :: cs)) ≠ true := by
        simp [List.isPrefixOf]
        intro hcc
        exact absurd hcc.symm hc
      rw [if_neg hcond]
      simp [ih, hc]

/-- C8: with read, translate and write succeeding, a failure of the base-name
translation is swallowed: the outcome is still successful and the output file
name falls back to the original stem; when base-name translation succeeds,
the slash, backslash and colon characters of the result are each replaced by
an underscore in the output file name, and that sanitization is exactly a
character map over the translated name. -/
theorem C8_basename_fallback :
    (∀ (env : FsEnv) (f d : FPath) (o : Str) (content translated e : Str),
      env.readFile f = .ok content →
      translate_markdown env content = .ok translated →
      env.translateText (stemOf (pathName f)) = .error e →
      (∀ (p : FPath) (c : Str), env.writeFile p c = .ok ()) →
      translateSingleFile env f d o = ⟨f, true, none⟩ ∧
      outPathOf env f d o =
        (create_output_path f d o).dropLast ++ [stemOf (pathName f) ++ ".md".data]) ∧
    (∀ (env : FsEnv) (f d : FPath) (o : Str) (s : Str),
      env.translateText (stemOf (pathName f)) = .ok s →
      outPathOf env f d o =
        (create_output_path f d o).dropLast ++ [sanitizeStem s ++ ".md".data]) ∧
    (∀ s : Str, sanitizeStem s =
      s.map (fun c => if c = '/' || c = '\\' || c = ':' then '_' else c)) := by
  refine ⟨?_, ?_, ?_⟩
  · intro env f d o content translated e hr ht hname hw
    constructor
    · simp [translateSingleFile, tsfe_ok hr ht (hw _ _)]
    · simp [outPathOf, hname]
  · intro env f d o s hname
    simp [outPathOf, hname]
  · intro s
    simp only [sanitizeStem, replaceAll_single, List.map_map]
    apply List.map_congr_left
    intro c _
    simp only [Function.comp_apply]
    by_cases h1 : c = '/'
    · simp [h1]
    · by_cases h2 : c = '\\'
      · simp [h1, h2]
      · by_cases h3 : c = ':'
        · simp [h1, h2, h3]
        · simp [h1, h2, h3]

/-- Witness for C8: a failing base-name translation still gives a successful
outcome named after the original stem, and a successful translated name with
a slash and colon is sanitized. -/
theorem C8_basename_fallback_witness :
    (translateSingleFile
        ⟨.ok [["README.md".data]],
         fun _ => .ok "hello".data,
         fun s => if s = "README".data then .error "nope".data else .ok s,
         fun _ _ => .ok ()⟩
        ["README.md".data] [] "jp".data = ⟨["README.md".data], true, none⟩ ∧
      outPathOf
        ⟨.ok [["README.md".data]],
         fun _ => .ok "hello".data,
         fun s => if s = "README".data then .error "nope".data else .ok s,
         fun _ _ => .ok ()⟩
        ["README.md".data] [] "jp".data =
        (create_output_path ["README.md".data] [] "jp".data).dropLast ++
          [stemOf (pathName ["README.md".data]) ++ ".md".data]) ∧
    sanitizeStem "a/b:c".data =
      "a/b:c".data.map (fun c => if c = '/' || c = '\\' || c = ':' then '_' else c) :=
  ⟨C8_basename_fallback.1
      ⟨.ok [["README.md".data]],
       fun _ => .ok "hello".data,
       fun s => if s = "README".data then .error "nope".data else .ok s,
       fun _ _ => .ok ()⟩
      ["README.md".data] [] "jp".data "hello".data "hello".data "nope".data
      rfl rfl rfl (fun _ _ => rfl),
    C8_basename_fallback.2.2 "a/b:c".data⟩

/-- The concrete batch environment of the example scenario: one document
README.md under the source root, with the stub translator that prefixes its
input, and plain reads and writes. -/
def exampleEnv : FsEnv :=
  ⟨.ok [["root".data, "README.md".data]],
   fun p => if p = ["root".data, "README.md".data] then
       .ok "# Hello\n\nBody[^1].\n\n[^1]: Note.".data
     else .error "missing".data,
   fun s => .ok ("[T] ".data ++ s),
   fun _ _ => .ok ()⟩

/-- C5, counterexample: with the stub translator the single output file is
not named after the translated document heading; the orchestrator translates
the file stem README, so the output path differs from the one the claim
states. -/
theorem C5_example_scenario_counterexample :
    outPathOf exampleEnv ["root".data, "README.md".data] ["root".data] "jp".data ≠
      ["root".data, "jp".data, "[T] Hello.md".data] := by decide

/-- C5 (amended): running the batch on the example directory yields exactly
one outcome, successful; the one write goes to root, jp, [T] README.md (the
translated stem, not the heading) and carries the content with the prefixed
body and the footnote definition restored verbatim; the footnote line is not
part of the text handed to the stub for the main body. -/
theorem C5_example_scenario_amended :
    translate_directory exampleEnv ["root".data] "jp".data =
      [⟨["root".data, "README.md".data], true, none⟩] ∧
    translateSingleFileE exampleEnv ["root".data, "README.md".data] ["root".data]
        "jp".data =
      .ok (["root".data, "jp".data, "[T] README.md".data],
        "[T] # Hello\n\nBody[^1].\n\n[^1]: Note.".data) ∧
    subStr "[^1]: Note.".data
      (preprocess_markdown "# Hello\n\nBody[^1].\n\n[^1]: Note.".data).1 = false := by
  refine ⟨by decide, by rfl, by decide⟩
